import Mathlib

/-!
Verification of the structured-response recovery routine
(src/tools/gemini.py, function parse_json_response) against its
natural-language specification.

Text is modelled as List Char.  The routine's pieces are embedded from the
source: Python str.strip (ASCII whitespace), str.split on a newline,
json.loads (a strict recursive-descent reading of the JSON grammar with
Python's NaN/Infinity extensions, driven by a fuel counter), the two greedy
regex spans, and the final ValueError message.
-/

set_option maxHeartbeats 1000000

namespace Gemini

/-- Whitespace stripped by Python str.strip (the ASCII whitespace chars). -/
def isPyWs (c : Char) : Bool :=
  c = ' ' || c = '\t' || c = '\n' || c = '\r' || c = '\x0b' || c = '\x0c'

/-- Python text.strip(): drop leading and trailing whitespace. -/
def pyStrip (l : List Char) : List Char :=
  ((l.dropWhile isPyWs).reverse.dropWhile isPyWs).reverse

/-- Python text.split on a newline: every newline separates, nothing collapses,
the empty text yields one empty chunk. -/
def splitNl (l : List Char) : List (List Char) :=
  l.splitOn '\n'

/-- Python a_newline.join(chunks). -/
def joinNl (chunks : List (List Char)) : List Char :=
  List.intercalate ['\n'] chunks

/-- JSON values as Python json.loads produces them.  Numbers keep their
source token (Python turns the token into an int or float; no claim here
depends on numeric arithmetic, only on value identity through
re-serialization, which the token preserves). -/
inductive Json where
  | null : Json
  | bool (b : Bool) : Json
  | num (tok : List Char) : Json
  | str (s : List Char) : Json
  | arr (elems : List Json) : Json
  | obj (fields : List (List Char × Json)) : Json

instance : Inhabited Json := ⟨Json.null⟩

/-- Whitespace skipped by the JSON grammar (json.loads). -/
def isJws (c : Char) : Bool :=
  c = ' ' || c = '\t' || c = '\n' || c = '\r'

def skipWs (l : List Char) : List Char :=
  l.dropWhile isJws

/-- Hex digit value, as the \u escape reader accepts it. -/
def hexVal (c : Char) : Option Nat :=
  if '0' ≤ c ∧ c ≤ '9' then some (c.toNat - '0'.toNat)
  else if 'a' ≤ c ∧ c ≤ 'f' then some (c.toNat - 'a'.toNat + 10)
  else if 'A' ≤ c ∧ c ≤ 'F' then some (c.toNat - 'A'.toNat + 10)
  else none

def hex4 (a b c d : Char) : Option Nat :=
  match hexVal a, hexVal b, hexVal c, hexVal d with
  | some x, some y, some z, some w => some (((x * 16 + y) * 16 + z) * 16 + w)
  | _, _, _, _ => none

/-- Code point from a \u escape.  A code point outside Lean's scalar values
(a lone surrogate, which Python would keep in its str) is mapped to U+FFFD;
no claim exercises that corner. -/
def charOfCode (n : Nat) : Char :=
  if n < 0xd800 then Char.ofNat n
  else if 0xe000 ≤ n ∧ n ≤ 0x10ffff then Char.ofNat n
  else '�'

/-- Body of a JSON string after the opening quote: decode escapes, reject
raw control characters (json.loads strict mode), stop at the closing
quote.  Returns the decoded chars and the rest of the input. -/
def parseStrChars : List Char → Option (List Char × List Char)
  | [] => none
  | c :: rest =>
    if c = '"' then some ([], rest)
    else if c = '\\' then
      match rest with
      | [] => none
      | e :: r =>
        if e = '"' then (parseStrChars r).map (fun p => ('"' :: p.1, p.2))
        else if e = '\\' then (parseStrChars r).map (fun p => ('\\' :: p.1, p.2))
        else if e = '/' then (parseStrChars r).map (fun p => ('/' :: p.1, p.2))
        else if e = 'b' then (parseStrChars r).map (fun p => ('\x08' :: p.1, p.2))
        else if e = 'f' then (parseStrChars r).map (fun p => ('\x0c' :: p.1, p.2))
        else if e = 'n' then (parseStrChars r).map (fun p => ('\n' :: p.1, p.2))
        else if e = 'r' then (parseStrChars r).map (fun p => ('\r' :: p.1, p.2))
        else if e = 't' then (parseStrChars r).map (fun p => ('\t' :: p.1, p.2))
        else if e = 'u' then
          match r with
          | a :: b :: c2 :: d :: r2 =>
            match hex4 a b c2 d with
            | some n => (parseStrChars r2).map (fun p => (charOfCode n :: p.1, p.2))
            | none => none
          | _ => none
        else none
    else if c.toNat < 0x20 then none
    else (parseStrChars rest).map (fun p => (c :: p.1, p.2))

/-- Integer part of the number regex: 0, or a nonzero digit then digits. -/
def scanIntPart : List Char → Option (List Char × List Char)
  | [] => none
  | c :: r =>
    if c = '0' then some (['0'], r)
    else if Char.isDigit c then
      some (c :: r.takeWhile Char.isDigit, r.dropWhile Char.isDigit)
    else none

/-- Optional fraction of the number regex: a dot then at least one digit,
otherwise consume nothing. -/
def scanFracPart (cs : List Char) : List Char × List Char :=
  match cs with
  | [] => ([], cs)
  | c :: r =>
    if c = '.' then
      let d := r.takeWhile Char.isDigit
      if d.isEmpty then ([], cs) else ('.' :: d, r.dropWhile Char.isDigit)
    else ([], cs)

/-- Optional exponent of the number regex: e or E, an optional sign, then
at least one digit, otherwise consume nothing. -/
def scanExpPart (cs : List Char) : List Char × List Char :=
  match cs with
  | c :: r =>
    if c = 'e' ∨ c = 'E' then
      match r with
      | s :: r2 =>
        if s = '+' ∨ s = '-' then
          let d := r2.takeWhile Char.isDigit
          if d.isEmpty then ([], cs)
          else (c :: s :: d, r2.dropWhile Char.isDigit)
        else
          let d := r.takeWhile Char.isDigit
          if d.isEmpty then ([], cs)
          else (c :: d, r.dropWhile Char.isDigit)
      | [] => ([], cs)
    else ([], cs)
  | [] => ([], cs)

def afterIntPart (i : List Char) (r1 : List Char) : List Char × List Char :=
  let f := scanFracPart r1
  let e := scanExpPart f.2
  (i ++ f.1 ++ e.1, e.2)

/-- The number regex of python json: -? (0 | [1-9][0-9]*) (. [0-9]+)?
([eE][+-]? [0-9]+)? with maximal munch and backtracking of the optional
groups. -/
def scanNumber : List Char → Option (List Char × List Char)
  | [] => none
  | c :: r =>
    if c = '-' then
      match scanIntPart r with
      | some (i, r1) => some (afterIntPart ('-' :: i) r1)
      | none => none
    else
      match scanIntPart (c :: r) with
      | some (i, r1) => some (afterIntPart i r1)
      | none => none

/-- A number token, or one of python json's constants NaN, Infinity,
-Infinity (tried after the number regex, as the scanner does). -/
def scanNumConst (cs : List Char) : Option (List Char × List Char) :=
  match scanNumber cs with
  | some r => some r
  | none =>
    match cs with
    | 'N' :: 'a' :: 'N' :: r => some (['N', 'a', 'N'], r)
    | 'I' :: 'n' :: 'f' :: 'i' :: 'n' :: 'i' :: 't' :: 'y' :: r =>
      some (['I', 'n', 'f', 'i', 'n', 'i', 't', 'y'], r)
    | '-' :: 'I' :: 'n' :: 'f' :: 'i' :: 'n' :: 'i' :: 't' :: 'y' :: r =>
      some (['-', 'I', 'n', 'f', 'i', 'n', 'i', 't', 'y'], r)
    | _ => none

/-- Insert a key into an object under python dict semantics: re-assigning
an existing key keeps its position and replaces its value. -/
def insertKV (acc : List (List Char × Json)) (k : List Char) (v : Json) :
    List (List Char × Json) :=
  match acc with
  | [] => [(k, v)]
  | (k0, v0) :: t => if k0 = k then (k0, v) :: t else (k0, v0) :: insertKV t k v

/-- Parser modes: a value, the tail of an array after its first element
started, the tail of an object. -/
inductive JMode where
  | val : JMode
  | arrCont (acc : List Json) : JMode
  | objCont (acc : List (List Char × Json)) : JMode

/-- The recursive-descent core of json.loads, driven by fuel.  In val mode
the input starts at a value; arrCont/objCont sit before the next element or
key of a partially read container. -/
def jrun : Nat → JMode → List Char → Option (Json × List Char)
  | 0, _, _ => none
  | Nat.succ f, JMode.val, cs =>
    match cs with
    | [] => none
    | c :: rest =>
      if c = '\x7b' then
        match skipWs rest with
        | [] => none
        | c2 :: rr =>
          if c2 = '\x7d' then some (Json.obj [], rr)
          else jrun f (JMode.objCont []) (c2 :: rr)
      else if c = '[' then
        match skipWs rest with
        | [] => none
        | c2 :: rr =>
          if c2 = ']' then some (Json.arr [], rr)
          else jrun f (JMode.arrCont []) (c2 :: rr)
      else if c = '"' then (parseStrChars rest).map (fun p => (Json.str p.1, p.2))
      else if c = 't' then
        match rest with
        | 'r' :: 'u' :: 'e' :: rr => some (Json.bool true, rr)
        | _ => none
      else if c = 'f' then
        match rest with
        | 'a' :: 'l' :: 's' :: 'e' :: rr => some (Json.bool false, rr)
        | _ => none
      else if c = 'n' then
        match rest with
        | 'u' :: 'l' :: 'l' :: rr => some (Json.null, rr)
        | _ => none
      else (scanNumConst (c :: rest)).map (fun p => (Json.num p.1, p.2))
  | Nat.succ f, JMode.arrCont acc, cs =>
    match jrun f JMode.val cs with
    | some (v, r1) =>
      match skipWs r1 with
      | [] => none
      | c :: r2 =>
        if c = ',' then jrun f (JMode.arrCont (v :: acc)) (skipWs r2)
        else if c = ']' then some (Json.arr (v :: acc).reverse, r2)
        else none
    | none => none
  | Nat.succ f, JMode.objCont acc, cs =>
    match cs with
    | [] => none
    | c :: rest =>
      if c = '"' then
        match parseStrChars rest with
        | some (k, r1) =>
          match skipWs r1 with
          | [] => none
          | c2 :: r2 =>
            if c2 = ':' then
              match jrun f JMode.val (skipWs r2) with
              | some (v, r3) =>
                match skipWs r3 with
                | [] => none
                | c3 :: r4 =>
                  if c3 = ',' then
                    match skipWs r4 with
                    | [] => none
                    | c4 :: r5 =>
                      if c4 = '"' then
                        jrun f (JMode.objCont (insertKV acc k v)) (c4 :: r5)
                      else none
                  else if c3 = '\x7d' then some (Json.obj (insertKV acc k v), r4)
                  else none
              | none => none
            else none
        | none => none
      else none

/-- json.loads: skip surrounding whitespace, read one value, demand the
end of the input.  The fuel is ample for any input of this length. -/
def json_loads (cs : List Char) : Option Json :=
  match jrun (cs.length + cs.length + 2) JMode.val (skipWs cs) with
  | some (v, rest) => if skipWs rest = [] then some v else none
  | none => none

/-- The span matched by re.search of an-open-bracket [\s\S]* a-close-bracket:
the match starts at the first open bracket that has a close bracket after it
(necessarily the first open bracket overall, when any match exists) and runs
greedily to the last close bracket of the text. -/
def spanBr (o c : Char) (l : List Char) : Option (List Char) :=
  match l.dropWhile (fun x => !(x = o)) with
  | [] => none
  | _ :: rs =>
    match rs.reverse.dropWhile (fun x => !(x = c)) with
    | [] => none
    | tl => some (o :: tl.reverse)

/-- The three backticks that open or close a markdown fence. -/
def ticks : List Char := ['\x60', '\x60', '\x60']

/-- De-fencing step of parse_json_response, applied to the stripped text
when it starts with three backticks: split on newlines, drop the first
line, drop the last line too when it strips to bare backticks, rejoin,
re-strip. -/
def deFence (t : List Char) : List Char :=
  let lines := splitNl t
  let kept :=
    if pyStrip (lines.getLastD []) = ticks then (lines.drop 1).dropLast
    else lines.drop 1
  pyStrip (joinNl kept)

/-- The text the parsing strategies actually run on: stripped, then
de-fenced when it starts with a fence marker. -/
def preprocText (s : List Char) : List Char :=
  let t := pyStrip s
  if ticks.isPrefixOf t then deFence t else t

/-- Message of the ValueError raised when every strategy fails: the code
interpolates the first 200 characters of the text variable as it stands
after trimming and de-fencing. -/
def errMsg (t : List Char) : List Char :=
  ("Could not parse JSON from response: ").toList ++ t.take 200 ++ ("...").toList

/-- Tail of parse_json_response after the array strategy failed: the
greedy object span on the same transformed text, then the ValueError. -/
def parseObjectFallback (t : List Char) : Except (List Char) Json :=
  match spanBr '\x7b' '\x7d' t with
  | some g =>
    match json_loads g with
    | some v => Except.ok v
    | none => Except.error (errMsg t)
  | none => Except.error (errMsg t)

/-- parse_json_response from src/tools/gemini.py: strip, de-fence, try a
direct json.loads, then the greedy array span, then the greedy object
span, and raise with a truncated snippet when everything fails. -/
def parse_json_response (s : List Char) : Except (List Char) Json :=
  let t := preprocText s
  match json_loads t with
  | some v => Except.ok v
  | none =>
    match spanBr '[' ']' t with
    | some g =>
      match json_loads g with
      | some v => Except.ok v
      | none => parseObjectFallback t
    | none => parseObjectFallback t

/-- Escape of one character inside a serialized JSON string: quote and
backslash get a backslash, control characters become a 4-digit unicode
escape, everything else is verbatim. -/
def escChar (c : Char) : List Char :=
  if c = '"' then ['\\', '"']
  else if c = '\\' then ['\\', '\\']
  else if c.toNat < 0x20 then
    ['\\', 'u', '0', '0',
      (Nat.digitChar (c.toNat / 16)), (Nat.digitChar (c.toNat % 16))]
  else [c]

def escStr (s : List Char) : List Char :=
  (s.map escChar).flatten

def commaJoin (ls : List (List Char)) : List Char :=
  List.intercalate [','] ls

/-- Modelled from the spec: the serialize step of the idempotence property
(re-serializing the recovered value to canonical structured-value text);
the repository has no serializer of its own, so this is the canonical
compact JSON printer. -/
def dumps : Json → List Char
  | Json.null => ['n', 'u', 'l', 'l']
  | Json.bool true => ['t', 'r', 'u', 'e']
  | Json.bool false => ['f', 'a', 'l', 's', 'e']
  | Json.num t => t
  | Json.str s => '"' :: (escStr s ++ ['"'])
  | Json.arr xs => '[' :: (commaJoin (xs.attach.map (fun e => dumps e.1)) ++ [']'])
  | Json.obj kvs =>
    '\x7b' :: (commaJoin (kvs.attach.map (fun kv =>
      '"' :: (escStr kv.1.1 ++ ['"', ':'] ++ dumps kv.1.2))) ++ ['\x7d'])
decreasing_by
  · have h1 : sizeOf e.1 < sizeOf xs := List.sizeOf_lt_of_mem e.2
    simp
    omega
  · have h1 : sizeOf kv.1 < sizeOf kvs := List.sizeOf_lt_of_mem kv.2
    have h2 : sizeOf kv.1.2 < sizeOf kv.1 := by
      obtain ⟨a, b⟩ := kv.1
      simp
    simp
    omega

/-- The de-fencing step as the specification words it: remove the first
line; if the last line of what remains strips to bare backticks, remove it
too; re-trim.  Stated for comparison with the code's deFence. -/
def deFenceClaim (t : List Char) : List Char :=
  let rest := (splitNl t).drop 1
  let kept :=
    match rest.getLast? with
    | some l => if pyStrip l = ticks then rest.dropLast else rest
    | none => rest
  pyStrip (joinNl kept)

/-- Object-span fallback of the claim-C2 reading, scanning the original
text. -/
def origScanObjFallback (s : List Char) : Except (List Char) Json :=
  match spanBr '\x7b' '\x7d' s with
  | some g =>
    match json_loads g with
    | some v => Except.ok v
    | none => Except.error (errMsg s)
  | none => Except.error (errMsg s)

/-- Modelled from the spec: the recovery routine as claim C2 describes it,
with the array- and object-substring strategies scanning the ORIGINAL
input text rather than the trimmed/de-fenced text.  Stated for comparison
with parse_json_response. -/
def parse_json_response_origScan (s : List Char) : Except (List Char) Json :=
  let t := preprocText s
  match json_loads t with
  | some v => Except.ok v
  | none =>
    match spanBr '[' ']' s with
    | some g =>
      match json_loads g with
      | some v => Except.ok v
      | none => origScanObjFallback s
    | none => origScanObjFallback s

def StopTail (rs : List Char) : Prop :=
  rs = [] ∨ ∃ c rs2, rs = c :: rs2 ∧ (c = ',' ∨ c = ']' ∨ c = '\x7d')

/-- The properties of a number token stored in a parsed value: its head
shape, its last character, and that the scanner reads it back unchanged
before any stop character. -/
def NumTok (t : List Char) : Prop :=
  (∃ c t2, t = c :: t2 ∧ (c = '-' ∨ c = 'N' ∨ c = 'I' ∨ Char.isDigit c = true)) ∧
  (∃ cl, t.getLast? = some cl ∧ (Char.isDigit cl = true ∨ cl = 'N' ∨ cl = 'y')) ∧
  (∀ rs, StopTail rs → scanNumConst (t ++ rs) = some (t, rs))

/-- Well-formedness of values the scanner can produce: number tokens are
rescannable scanner tokens and object keys are distinct. -/
inductive WF : Json → Prop where
  | null : WF Json.null
  | bool (b : Bool) : WF (Json.bool b)
  | num (t : List Char) (ht : NumTok t) : WF (Json.num t)
  | str (s : List Char) : WF (Json.str s)
  | arr (xs : List Json) (h : ∀ x ∈ xs, WF x) : WF (Json.arr xs)
  | obj (kvs : List (List Char × Json)) (h : ∀ kv ∈ kvs, WF kv.2)
      (hk : (kvs.map Prod.fst).Nodup) : WF (Json.obj kvs)

/-- The serialized text of one object member. -/
def dumpsPair (kv : List Char × Json) : List Char :=
  '"' :: (escStr kv.1 ++ ['"', ':'] ++ dumps kv.2)

/-! ## Facts about stripping -/

theorem dropWhile_all_append (p : Char → Bool) (a m : List Char)
    (ha : ∀ c ∈ a, p c = true) (hm : m.dropWhile p = m) :
    (a ++ m).dropWhile p = m := by
  induction a with
  | nil => simpa using hm
  | cons c a ih =>
    have hc : p c = true := ha c (List.mem_cons_self c a)
    simpa [List.dropWhile_cons, hc] using
      ih (fun x hx => ha x (List.mem_cons_of_mem c hx))

theorem dropWhile_cons_neg (p : Char → Bool) (c : Char) (l : List Char)
    (hc : p c = false) : (c :: l).dropWhile p = c :: l := by
  simp [List.dropWhile_cons, hc]

theorem head_not_of_dropWhile_self (p : Char → Bool) (c : Char) (l : List Char)
    (h : (c :: l).dropWhile p = c :: l) : p c = false := by
  by_contra hc
  have hc' : p c = true := by
    cases hpc : p c with
    | false => exact absurd hpc hc
    | true => rfl
  rw [List.dropWhile_cons, hc', if_pos rfl] at h
  have hle : (l.dropWhile p).length ≤ l.length :=
    (List.dropWhile_sublist p).length_le
  have := congrArg List.length h
  simp at this
  omega

/-- Stripping a text that is whitespace, then a chunk with non-whitespace
ends, then whitespace, returns exactly the chunk. -/
theorem pyStrip_sandwich (a b m : List Char)
    (ha : ∀ c ∈ a, isPyWs c = true) (hb : ∀ c ∈ b, isPyWs c = true)
    (h1 : m.dropWhile isPyWs = m) (h2 : m.reverse.dropWhile isPyWs = m.reverse) :
    m ≠ [] → pyStrip (a ++ m ++ b) = m := by
  intro hm
  obtain ⟨c, m', rfl⟩ := List.exists_cons_of_ne_nil hm
  have hc : isPyWs c = false := head_not_of_dropWhile_self _ _ _ h1
  unfold pyStrip
  rw [List.append_assoc]
  rw [dropWhile_all_append isPyWs a ((c :: m') ++ b) ha
    (by rw [List.cons_append]; exact dropWhile_cons_neg _ _ _ hc)]
  rw [List.reverse_append]
  rw [dropWhile_all_append isPyWs b.reverse (c :: m').reverse
    (fun x hx => hb x (List.mem_reverse.mp hx)) h2]
  exact List.reverse_reverse _

/-- Stripping a chunk whose two ends are non-whitespace changes nothing. -/
theorem pyStrip_eq_self (m : List Char)
    (h1 : m.dropWhile isPyWs = m) (h2 : m.reverse.dropWhile isPyWs = m.reverse) :
    pyStrip m = m := by
  cases m with
  | nil => rfl
  | cons c m' =>
    have := pyStrip_sandwich [] [] (c :: m') (by simp) (by simp) h1 h2 (by simp)
    simpa using this

/-! ## Facts about splitting on newlines -/

theorem splitNl_ne_nil (l : List Char) : splitNl l ≠ [] :=
  List.splitOnP_ne_nil _ l

theorem splitNl_no_nl (l : List Char) (h : '\n' ∉ l) : splitNl l = [l] := by
  unfold splitNl List.splitOn
  refine List.splitOnP_eq_single _ _ ?_
  intro x hx hbx
  rw [beq_iff_eq] at hbx
  exact h (hbx ▸ hx)

theorem joinNl_splitNl (l : List Char) : joinNl (splitNl l) = l := by
  unfold joinNl splitNl
  exact List.intercalate_splitOn _ '\n'

/-- Every newline separates: splitting a concatenation around one newline
splits the two sides independently. -/
theorem splitNl_append (xs ys : List Char) :
    splitNl (xs ++ '\n' :: ys) = splitNl xs ++ splitNl ys := by
  unfold splitNl List.splitOn
  induction xs with
  | nil => simp [List.splitOnP_cons]
  | cons c xs ih =>
    rw [List.cons_append, List.splitOnP_cons, List.splitOnP_cons, ih]
    by_cases hc : (c == '\n') = true
    · simp [hc]
    · have hcb : (c == '\n') = false := by
        cases h : (c == '\n') with
        | false => rfl
        | true => exact absurd h hc
      obtain ⟨a, t, hA⟩ := List.exists_cons_of_ne_nil (List.splitOnP_ne_nil (· == '\n') xs)
      simp [hcb, hA]

/-! ## The greedy bracket span -/

/-- When the open bracket is absent left of a bracketed chunk and the close
bracket absent right of it, the greedy span is exactly the chunk. -/
theorem spanBr_sandwich (o c : Char) (b a mid : List Char)
    (hbo : o ∉ b) (hac : c ∉ a) :
    spanBr o c (b ++ (o :: mid ++ [c]) ++ a) = some (o :: mid ++ [c]) := by
  have hb : ∀ x ∈ b, (!decide (x = o)) = true := by
    intro x hx
    simp only [Bool.not_eq_true', decide_eq_false_iff_not]
    exact fun he => hbo (he ▸ hx)
  have ha : ∀ x ∈ a.reverse, (!decide (x = c)) = true := by
    intro x hx
    simp only [Bool.not_eq_true', decide_eq_false_iff_not]
    exact fun he => hac (he ▸ List.mem_reverse.mp hx)
  have h1 : (b ++ (o :: mid ++ [c]) ++ a).dropWhile (fun x => !decide (x = o)) =
      o :: (mid ++ ([c] ++ a)) := by
    simp only [List.append_assoc, List.cons_append]
    exact dropWhile_all_append _ b _ hb (dropWhile_cons_neg _ o _ (by simp))
  have h2 : (mid ++ ([c] ++ a)).reverse.dropWhile (fun x => !decide (x = c)) =
      c :: mid.reverse := by
    have hre : (mid ++ ([c] ++ a)).reverse = a.reverse ++ (c :: mid.reverse) := by
      simp
    rw [hre]
    exact dropWhile_all_append _ a.reverse _ ha (dropWhile_cons_neg _ c _ (by simp))
  unfold spanBr
  rw [h1]
  simp only [h2]
  simp

/-! ## Unfolding the routine -/

/-- One equation describing parse_json_response by its strategy cascade. -/
theorem pjr_eq (s : List Char) :
    parse_json_response s =
      match json_loads (preprocText s) with
      | some v => Except.ok v
      | none =>
        match (spanBr '[' ']' (preprocText s)).bind json_loads with
        | some v => Except.ok v
        | none =>
          match (spanBr '\x7b' '\x7d' (preprocText s)).bind json_loads with
          | some v => Except.ok v
          | none => Except.error (errMsg (preprocText s)) := by
  simp only [parse_json_response, parseObjectFallback]
  cases h1 : json_loads (preprocText s) with
  | some v => rfl
  | none =>
    cases h2 : spanBr '[' ']' (preprocText s) with
    | none =>
      simp only [Option.bind_eq_bind, Option.none_bind]
      cases h3 : spanBr '\x7b' '\x7d' (preprocText s) with
      | none => rfl
      | some g => simp only [Option.some_bind]
    | some g =>
      simp only [Option.some_bind]
      cases h4 : json_loads g with
      | some v => rfl
      | none =>
        cases h3 : spanBr '\x7b' '\x7d' (preprocText s) with
        | none => rfl
        | some g2 => simp only [Option.some_bind]

theorem preprocText_no_fence (s : List Char) (h : ticks.isPrefixOf (pyStrip s) = false) :
    preprocText s = pyStrip s := by
  unfold preprocText
  simp [h]

theorem preprocText_fence (s : List Char) (h : ticks.isPrefixOf (pyStrip s) = true) :
    preprocText s = deFence (pyStrip s) := by
  unfold preprocText
  simp [h]

theorem dropWhile_of_headQ (l : List Char) (c : Char)
    (h : l.head? = some c) (hc : isPyWs c = false) :
    l.dropWhile isPyWs = l := by
  cases l with
  | nil => rfl
  | cons x xs =>
    have hx : x = c := by simpa using h
    exact hx ▸ dropWhile_cons_neg _ _ _ (hx ▸ hc)

theorem dropWhile_rev_of_getLastQ (l : List Char) (c : Char)
    (h : l.getLast? = some c) (hc : isPyWs c = false) :
    l.reverse.dropWhile isPyWs = l.reverse := by
  have hh : l.reverse.head? = some c := by rw [List.head?_reverse]; exact h
  exact dropWhile_of_headQ _ _ hh hc

theorem dropWhile_append_keep (p : Char → Bool) (x z : List Char)
    (hz : z.dropWhile p = z) : (x ++ z).dropWhile p = x.dropWhile p ++ z := by
  induction x with
  | nil => simpa using hz
  | cons c x ih =>
    by_cases hc : p c = true
    · simp only [List.cons_append, List.dropWhile_cons, hc, if_pos rfl]
      simpa [hc] using ih
    · have hc' : p c = false := by
        cases hpc : p c with
        | false => rfl
        | true => exact absurd hpc hc
      simp [List.dropWhile_cons, hc']

/-- Stripping around a chunk with non-whitespace ends keeps the chunk and
strips each side independently. -/
theorem pyStrip_decomp (x y m : List Char) (c0 : Char) (hm : m.head? = some c0)
    (hc0 : isPyWs c0 = false) (cl : Char) (hlast : m.getLast? = some cl)
    (hcl : isPyWs cl = false) :
    pyStrip (x ++ m ++ y) =
      x.dropWhile isPyWs ++ m ++ (y.reverse.dropWhile isPyWs).reverse := by
  cases m with
  | nil => exact absurd hm (by simp)
  | cons a m' =>
    have ha : a = c0 := by simpa using hm
    subst ha
    have hz1 : ((a :: m') ++ y).dropWhile isPyWs = (a :: m') ++ y := by
      rw [List.cons_append]
      exact dropWhile_cons_neg _ _ _ hc0
    have hrev : (a :: m').reverse.dropWhile isPyWs = (a :: m').reverse :=
      dropWhile_rev_of_getLastQ _ _ hlast hcl
    obtain ⟨b, bs, hb⟩ := List.exists_cons_of_ne_nil
      (show (a :: m').reverse ≠ [] by simp)
    have hbc : b = cl := by
      have := List.head?_reverse (a :: m')
      rw [hb, hlast] at this
      simpa using this
    have hz2 : ((a :: m').reverse ++ (x.dropWhile isPyWs).reverse).dropWhile isPyWs =
        (a :: m').reverse ++ (x.dropWhile isPyWs).reverse := by
      rw [hb, List.cons_append]
      exact dropWhile_cons_neg _ _ _ (hbc ▸ hcl)
    unfold pyStrip
    rw [List.append_assoc, dropWhile_append_keep isPyWs x ((a :: m') ++ y) hz1]
    rw [show (x.dropWhile isPyWs ++ ((a :: m') ++ y)).reverse =
        y.reverse ++ ((a :: m').reverse ++ (x.dropWhile isPyWs).reverse) by simp]
    rw [dropWhile_append_keep isPyWs y.reverse _ hz2]
    simp

theorem getD_getLastQ (l1 : List Char) (ls' : List (List Char)) :
    ls'.getLast?.getD l1 = (l1 :: ls').getLast (by simp) := by
  cases ls' with
  | nil => rfl
  | cons l2 ls =>
    rw [List.getLast?_eq_getLast (l2 :: ls) (by simp),
      List.getLast_cons (show l2 :: ls ≠ [] by simp)]
    rfl

/-- The code's de-fencing and the specification's wording of it agree. -/
theorem deFence_eq_claim (t : List Char) : deFence t = deFenceClaim t := by
  unfold deFence deFenceClaim
  cases h : splitNl t with
  | nil => exact absurd h (splitNl_ne_nil t)
  | cons l0 ls =>
    cases ls with
    | nil => simp
    | cons l1 ls' =>
      simp only [List.drop_one, List.tail_cons, List.getLastD_cons,
        List.getLastD_eq_getLast?, getD_getLastQ]
      rw [List.getLast?_eq_getLast (l1 :: ls') (by simp)]
      simp [getD_getLastQ]

/-! ## The claims -/

theorem takeWhile_all_append (p : Char → Bool) (l X : List Char)
    (hl : ∀ x ∈ l, p x = true) (hX : ∀ c, X.head? = some c → p c = false) :
    (l ++ X).takeWhile p = l ∧ (l ++ X).dropWhile p = X := by
  induction l with
  | nil =>
    cases X with
    | nil => simp
    | cons c X2 =>
      have := hX c rfl
      simp [List.takeWhile_cons, List.dropWhile_cons, this]
  | cons a l ih =>
    have ha := hl a (List.mem_cons_self a l)
    have ih2 := ih (fun x hx => hl x (List.mem_cons_of_mem a hx))
    constructor
    · simp [List.takeWhile_cons, ha, ih2.1]
    · simp [List.dropWhile_cons, ha, ih2.2]

theorem scanIntPart_rescan (cs t r : List Char) (h : scanIntPart cs = some (t, r)) :
    (∃ c t2, t = c :: t2 ∧ Char.isDigit c = true) ∧
    (∀ x ∈ t, Char.isDigit x = true) ∧
    (∀ X, (∀ c, X.head? = some c → Char.isDigit c = false) →
      scanIntPart (t ++ X) = some (t, X)) := by
  cases cs with
  | nil => exact absurd h (by simp [scanIntPart])
  | cons c cr =>
    simp only [scanIntPart] at h
    by_cases h0 : c = '0'
    · rw [if_pos h0] at h
      have h' := Option.some.inj h
      injection h' with h1 h2
      subst h1
      subst h2
      subst h0
      refine ⟨⟨'0', [], rfl, by decide⟩, by decide, ?_⟩
      intro X hX
      simp [scanIntPart]
    · rw [if_neg h0] at h
      by_cases hd : Char.isDigit c = true
      · rw [if_pos hd] at h
        have h' := Option.some.inj h
        injection h' with h1 h2
        subst h1
        subst h2
        have hall : ∀ x ∈ cr.takeWhile Char.isDigit, Char.isDigit x = true :=
          fun x hx => List.mem_takeWhile_imp hx
        refine ⟨⟨c, _, rfl, hd⟩, ?_, ?_⟩
        · intro x hx
          rcases List.mem_cons.mp hx with rfl | hx2
          · exact hd
          · exact hall x hx2
        · intro X hX
          have hta := takeWhile_all_append Char.isDigit (cr.takeWhile Char.isDigit) X hall hX
          simp only [scanIntPart, List.cons_append]
          rw [if_neg h0, if_pos hd, hta.1, hta.2]
      · rw [if_neg hd] at h
        exact absurd h (by simp)

theorem scanFracPart_rescan (cs f1 r2 : List Char) (h : scanFracPart cs = (f1, r2)) :
    (f1 = [] ∨ ∃ d, f1 = '.' :: d ∧ d ≠ [] ∧ ∀ x ∈ d, Char.isDigit x = true) ∧
    (∀ Y, (∀ c, Y.head? = some c → (Char.isDigit c = false ∧ c ≠ '.')) →
      scanFracPart (f1 ++ Y) = (f1, Y)) := by
  have hempty : ∀ Y, (∀ c, Y.head? = some c → (Char.isDigit c = false ∧ c ≠ '.')) →
      scanFracPart Y = ([], Y) := by
    intro Y hY
    cases Y with
    | nil => rfl
    | cons c Y2 =>
      have := (hY c rfl).2
      simp [scanFracPart, this]
  cases cs with
  | nil =>
    simp only [scanFracPart] at h
    injection h with h1 h2
    subst h1
    subst h2
    exact ⟨Or.inl rfl, fun Y hY => by simpa using hempty Y hY⟩
  | cons c cr =>
    simp only [scanFracPart] at h
    by_cases hdot : c = '.'
    · rw [if_pos hdot] at h
      by_cases hde : (cr.takeWhile Char.isDigit).isEmpty = true
      · rw [if_pos hde] at h
        injection h with h1 h2
        subst h1
        subst h2
        exact ⟨Or.inl rfl, fun Y hY => by simpa using hempty Y hY⟩
      · rw [if_neg hde] at h
        injection h with h1 h2
        subst h1
        subst h2
        have hall : ∀ x ∈ cr.takeWhile Char.isDigit, Char.isDigit x = true :=
          fun x hx => List.mem_takeWhile_imp hx
        have hne : cr.takeWhile Char.isDigit ≠ [] := by
          intro hnil
          exact hde (by simp [hnil])
        refine ⟨Or.inr ⟨_, rfl, hne, hall⟩, ?_⟩
        intro Y hY
        have hta := takeWhile_all_append Char.isDigit (cr.takeWhile Char.isDigit) Y hall
          (fun c hc => (hY c hc).1)
        have hie : (List.takeWhile Char.isDigit cr ++ Y).takeWhile Char.isDigit ≠ [] := by
          rw [hta.1]
          exact hne
        simp only [scanFracPart, List.cons_append, hta.1, hta.2]
        simp [List.isEmpty_iff, hne]
    · rw [if_neg hdot] at h
      injection h with h1 h2
      subst h1
      subst h2
      exact ⟨Or.inl rfl, fun Y hY => by simpa using hempty Y hY⟩

theorem scanExpPart_rescan (cs e1 r3 : List Char) (h : scanExpPart cs = (e1, r3)) :
    (e1 = [] ∨ ((∃ ch d1, e1 = ch :: d1 ∧ (ch = 'e' ∨ ch = 'E')) ∧
      ∃ cl, e1.getLast? = some cl ∧ Char.isDigit cl = true)) ∧
    (∀ Z, (∀ c, Z.head? = some c → (Char.isDigit c = false ∧ c ≠ 'e' ∧ c ≠ 'E')) →
      scanExpPart (e1 ++ Z) = (e1, Z)) := by
  have hempty : ∀ Z, (∀ c, Z.head? = some c → (Char.isDigit c = false ∧ c ≠ 'e' ∧ c ≠ 'E')) →
      scanExpPart Z = ([], Z) := by
    intro Z hZ
    cases Z with
    | nil => rfl
    | cons c Z2 =>
      have h1 := (hZ c rfl).2.1
      have h2 := (hZ c rfl).2.2
      have hne : ¬(c = 'e' ∨ c = 'E') := by
        rintro (rfl | rfl)
        · exact h1 rfl
        · exact h2 rfl
      simp [scanExpPart, hne]
  have hlastd : ∀ d : List Char, d ≠ [] → (∀ x ∈ d, Char.isDigit x = true) →
      ∃ cl, d.getLast? = some cl ∧ Char.isDigit cl = true := by
    intro d hd hall
    obtain ⟨a, l2, hal⟩ := List.exists_cons_of_ne_nil hd
    subst hal
    exact ⟨(a :: l2).getLast (by simp), List.getLast?_eq_getLast _ _,
      hall _ (List.getLast_mem _)⟩
  have hnilcase : e1 = [] →
      ((e1 = [] ∨ ((∃ ch d1, e1 = ch :: d1 ∧ (ch = 'e' ∨ ch = 'E')) ∧
        ∃ cl, e1.getLast? = some cl ∧ Char.isDigit cl = true)) ∧
      (∀ Z, (∀ c, Z.head? = some c → (Char.isDigit c = false ∧ c ≠ 'e' ∧ c ≠ 'E')) →
        scanExpPart (e1 ++ Z) = (e1, Z))) := by
    rintro rfl
    exact ⟨Or.inl rfl, fun Z hZ => by simpa using hempty Z hZ⟩
  cases cs with
  | nil =>
    simp only [scanExpPart] at h
    exact hnilcase (by
      have := congrArg Prod.fst h
      simpa using this.symm)
  | cons c cr =>
    by_cases he : c = 'e' ∨ c = 'E'
    case neg =>
      simp only [scanExpPart, if_neg he] at h
      exact hnilcase (by
        have := congrArg Prod.fst h
        simpa using this.symm)
    case pos =>
      cases cr with
      | nil =>
        simp only [scanExpPart, if_pos he] at h
        exact hnilcase (by
          have := congrArg Prod.fst h
          simpa using this.symm)
      | cons s r2 =>
        by_cases hs : s = '+' ∨ s = '-'
        · by_cases hde : (r2.takeWhile Char.isDigit).isEmpty = true
          · simp only [scanExpPart, if_pos he, if_pos hs, if_pos hde] at h
            exact hnilcase (by
              have := congrArg Prod.fst h
              simpa using this.symm)
          · simp only [scanExpPart, if_pos he, if_pos hs, if_neg hde] at h
            injection h with h1 h2
            subst h1
            subst h2
            have hall : ∀ x ∈ r2.takeWhile Char.isDigit, Char.isDigit x = true :=
              fun x hx => List.mem_takeWhile_imp hx
            have hne : r2.takeWhile Char.isDigit ≠ [] := by
              intro hnil
              exact hde (by simp [hnil])
            refine ⟨Or.inr ⟨⟨c, _, rfl, he⟩, ?_⟩, ?_⟩
            · obtain ⟨cl, hcl, hcld⟩ := hlastd _ hne hall
              refine ⟨cl, ?_, hcld⟩
              obtain ⟨a, l2, hal⟩ := List.exists_cons_of_ne_nil hne
              rw [hal, List.getLast?_cons_cons, List.getLast?_cons_cons, ← hal]
              exact hcl
            · intro Z hZ
              have hta := takeWhile_all_append Char.isDigit (r2.takeWhile Char.isDigit) Z hall
                (fun c2 hc2 => (hZ c2 hc2).1)
              have hde2 : ((r2.takeWhile Char.isDigit ++ Z).takeWhile Char.isDigit).isEmpty = false := by
                rw [hta.1]
                simpa [List.isEmpty_iff] using hne
              simp only [List.cons_append, scanExpPart, if_pos he, if_pos hs, hde2,
                Bool.false_eq_true, if_false, hta.1, hta.2]
              rw [if_neg hde]
        · by_cases hde : ((s :: r2).takeWhile Char.isDigit).isEmpty = true
          · simp only [scanExpPart, if_pos he, if_neg hs, if_pos hde] at h
            exact hnilcase (by
              have := congrArg Prod.fst h
              simpa using this.symm)
          · simp only [scanExpPart, if_pos he, if_neg hs, if_neg hde] at h
            injection h with h1 h2
            subst h1
            subst h2
            have hall : ∀ x ∈ (s :: r2).takeWhile Char.isDigit, Char.isDigit x = true :=
              fun x hx => List.mem_takeWhile_imp hx
            have hne : (s :: r2).takeWhile Char.isDigit ≠ [] := by
              intro hnil
              exact hde (by simp [hnil])
            have hsd : Char.isDigit s = true := by
              by_contra hsd
              rw [List.takeWhile_cons, if_neg (by simpa using hsd)] at hne
              exact hne rfl
            have htkc : (s :: r2).takeWhile Char.isDigit =
                s :: r2.takeWhile Char.isDigit := by
              rw [List.takeWhile_cons, if_pos hsd]
            refine ⟨Or.inr ⟨⟨c, _, rfl, he⟩, ?_⟩, ?_⟩
            · obtain ⟨cl, hcl, hcld⟩ := hlastd _ hne hall
              refine ⟨cl, ?_, hcld⟩
              obtain ⟨a, l2, hal⟩ := List.exists_cons_of_ne_nil hne
              rw [hal, List.getLast?_cons_cons, ← hal]
              exact hcl
            · intro Z hZ
              have hta := takeWhile_all_append Char.isDigit ((s :: r2).takeWhile Char.isDigit) Z
                hall (fun c2 hc2 => (hZ c2 hc2).1)
              rw [htkc] at hta
              have hsplus : ¬(s = '+' ∨ s = '-') := by
                rintro (rfl | rfl) <;> revert hsd <;> decide
              have hde2 : (((s :: r2.takeWhile Char.isDigit).takeWhile Char.isDigit ++
                  []).isEmpty) = false := by
                simp [List.takeWhile_cons, hsd]
              simp only [htkc, List.cons_append, scanExpPart, if_pos he, if_neg hsplus]
              simp only [List.cons_append] at hta
              simp [List.takeWhile_cons, List.dropWhile_cons, hsd, hta.1, hta.2]

theorem lastQ_all (P : Char → Prop) (l : List Char) (hne : l ≠ [])
    (hall : ∀ x ∈ l, P x) : ∃ cl, l.getLast? = some cl ∧ P cl := by
  obtain ⟨a, l2, hal⟩ := List.exists_cons_of_ne_nil hne
  subst hal
  exact ⟨(a :: l2).getLast (by simp), List.getLast?_eq_getLast _ _,
    hall _ (List.getLast_mem _)⟩

theorem lastQ_append_right (x y : List Char) (cl : Char) (h : y.getLast? = some cl) :
    (x ++ y).getLast? = some cl := by
  rw [List.getLast?_append, h]
  rfl

theorem lastQ_cons_of_ne (a : Char) (l : List Char) (hne : l ≠ []) :
    (a :: l).getLast? = l.getLast? := by
  obtain ⟨b, l2, hal⟩ := List.exists_cons_of_ne_nil hne
  subst hal
  rw [List.getLast?_cons_cons]

theorem stopTail_facts (rs : List Char) (h : StopTail rs) :
    ∀ c, rs.head? = some c →
      (Char.isDigit c = false ∧ c ≠ '.' ∧ c ≠ 'e' ∧ c ≠ 'E') := by
  intro c hc
  rcases h with rfl | ⟨c2, rs2, rfl, hc2⟩
  · simp at hc
  · have hcc : c2 = c := by simpa using hc
    subst hcc
    rcases hc2 with rfl | rfl | rfl <;> exact ⟨by decide, by decide, by decide, by decide⟩

theorem scanNumber_rescan (cs t r : List Char) (h : scanNumber cs = some (t, r)) :
    (∃ c t2, t = c :: t2 ∧ (c = '-' ∨ Char.isDigit c = true)) ∧
    (∃ cl, t.getLast? = some cl ∧ Char.isDigit cl = true) ∧
    (∀ X, (∀ c, X.head? = some c →
        (Char.isDigit c = false ∧ c ≠ '.' ∧ c ≠ 'e' ∧ c ≠ 'E')) →
      scanNumber (t ++ X) = some (t, X)) := by
  cases cs with
  | nil => exact absurd h (by simp [scanNumber])
  | cons c r0 =>
    simp only [scanNumber] at h
    by_cases hminus : c = '-'
    · rw [if_pos hminus] at h
      cases hip : scanIntPart r0 with
      | none => rw [hip] at h; exact absurd h (by simp)
      | some p =>
        obtain ⟨i, r1⟩ := p
        rw [hip] at h
        rcases hfp : scanFracPart r1 with ⟨f1, r2⟩
        rcases hep : scanExpPart r2 with ⟨e1, r3⟩
        simp only [afterIntPart, hfp, hep] at h
        rw [Option.some.injEq, Prod.mk.injEq] at h
        obtain ⟨h1, h2⟩ := h
        subst hminus
        obtain ⟨⟨c0, i2, hi0, hc0d⟩, hiall, hirescan⟩ := scanIntPart_rescan r0 i r1 hip
        obtain ⟨hfshape, hfrescan⟩ := scanFracPart_rescan r1 f1 r2 hfp
        obtain ⟨heshape, herescan⟩ := scanExpPart_rescan r2 e1 r3 hep
        have hine : i ≠ [] := by rw [hi0]; simp
        constructor
        · exact ⟨'-', i ++ f1 ++ e1, by rw [← h1]; simp, Or.inl rfl⟩
        constructor
        · -- last char digit
          rcases heshape with rfl | ⟨⟨ch, d1, rfl, hch⟩, cl, hcl, hcld⟩
          · rcases hfshape with rfl | ⟨d, rfl, hdne, hdall⟩
            · obtain ⟨cl, hcl, hcld⟩ := lastQ_all _ i hine hiall
              refine ⟨cl, ?_, hcld⟩
              rw [← h1]
              simp only [List.append_nil]
              exact lastQ_append_right ['-'] i cl hcl
            · obtain ⟨cl, hcl, hcld⟩ := lastQ_all _ d hdne hdall
              refine ⟨cl, ?_, hcld⟩
              rw [← h1]
              simp only [List.append_nil]
              refine lastQ_append_right _ _ _ ?_
              rw [lastQ_cons_of_ne '.' d hdne]
              exact hcl
          · refine ⟨cl, ?_, hcld⟩
            rw [← h1]
            exact lastQ_append_right _ _ _ hcl
        · intro X hX
          have hfeX : ∀ c2, (f1 ++ (e1 ++ X)).head? = some c2 → Char.isDigit c2 = false := by
            intro c2 hc2
            rcases hfshape with rfl | ⟨d, rfl, hdne, hdall⟩
            · simp only [List.nil_append] at hc2
              rcases heshape with rfl | ⟨⟨ch, d1, rfl, hch⟩, _⟩
              · simp only [List.nil_append] at hc2
                exact (hX c2 hc2).1
              · have hcc : ch = c2 := by simpa using hc2
                subst hcc
                rcases hch with rfl | rfl <;> decide
            · have hcc : '.' = c2 := by simpa using hc2
              rw [← hcc]
              decide
          have heX : ∀ c2, (e1 ++ X).head? = some c2 →
              (Char.isDigit c2 = false ∧ c2 ≠ '.') := by
            intro c2 hc2
            rcases heshape with rfl | ⟨⟨ch, d1, rfl, hch⟩, _⟩
            · simp only [List.nil_append] at hc2
              exact ⟨(hX c2 hc2).1, (hX c2 hc2).2.1⟩
            · have hcc : ch = c2 := by simpa using hc2
              subst hcc
              rcases hch with rfl | rfl <;> exact ⟨by decide, by decide⟩
          have hXe : ∀ c2, X.head? = some c2 →
              (Char.isDigit c2 = false ∧ c2 ≠ 'e' ∧ c2 ≠ 'E') := by
            intro c2 hc2
            exact ⟨(hX c2 hc2).1, (hX c2 hc2).2.2.1, (hX c2 hc2).2.2.2⟩
          rw [← h1]
          have hform : ('-' :: i ++ f1 ++ e1) ++ X = '-' :: (i ++ (f1 ++ (e1 ++ X))) := by
            simp
          rw [hform]
          simp only [scanNumber, if_pos rfl]
          rw [hirescan (f1 ++ (e1 ++ X)) hfeX]
          simp only [afterIntPart, hfrescan (e1 ++ X) heX,
            herescan X (fun c2 hc2 => ⟨(hXe c2 hc2).1, (hXe c2 hc2).2.1, (hXe c2 hc2).2.2⟩)]
          simp
    · rw [if_neg hminus] at h
      cases hip : scanIntPart (c :: r0) with
      | none => rw [hip] at h; exact absurd h (by simp)
      | some p =>
        obtain ⟨i, r1⟩ := p
        rw [hip] at h
        rcases hfp : scanFracPart r1 with ⟨f1, r2⟩
        rcases hep : scanExpPart r2 with ⟨e1, r3⟩
        simp only [afterIntPart, hfp, hep] at h
        rw [Option.some.injEq, Prod.mk.injEq] at h
        obtain ⟨h1, h2⟩ := h
        obtain ⟨⟨c0, i2, hi0, hc0d⟩, hiall, hirescan⟩ := scanIntPart_rescan _ i r1 hip
        obtain ⟨hfshape, hfrescan⟩ := scanFracPart_rescan r1 f1 r2 hfp
        obtain ⟨heshape, herescan⟩ := scanExpPart_rescan r2 e1 r3 hep
        have hine : i ≠ [] := by rw [hi0]; simp
        constructor
        · refine ⟨c0, i2 ++ f1 ++ e1, ?_, Or.inr hc0d⟩
          rw [← h1, hi0]
          simp
        constructor
        · rcases heshape with rfl | ⟨⟨ch, d1, rfl, hch⟩, cl, hcl, hcld⟩
          · rcases hfshape with rfl | ⟨d, rfl, hdne, hdall⟩
            · obtain ⟨cl, hcl, hcld⟩ := lastQ_all _ i hine hiall
              exact ⟨cl, by rw [← h1]; simpa using hcl, hcld⟩
            · obtain ⟨cl, hcl, hcld⟩ := lastQ_all _ d hdne hdall
              refine ⟨cl, ?_, hcld⟩
              rw [← h1]
              simp only [List.append_nil]
              refine lastQ_append_right _ _ _ ?_
              rw [lastQ_cons_of_ne '.' d hdne]
              exact hcl
          · refine ⟨cl, ?_, hcld⟩
            rw [← h1]
            exact lastQ_append_right _ _ _ hcl
        · intro X hX
          have hfeX : ∀ c2, (f1 ++ (e1 ++ X)).head? = some c2 → Char.isDigit c2 = false := by
            intro c2 hc2
            rcases hfshape with rfl | ⟨d, rfl, hdne, hdall⟩
            · simp only [List.nil_append] at hc2
              rcases heshape with rfl | ⟨⟨ch, d1, rfl, hch⟩, _⟩
              · simp only [List.nil_append] at hc2
                exact (hX c2 hc2).1
              · have hcc : ch = c2 := by simpa using hc2
                subst hcc
                rcases hch with rfl | rfl <;> decide
            · have hcc : '.' = c2 := by simpa using hc2
              rw [← hcc]
              decide
          have heX : ∀ c2, (e1 ++ X).head? = some c2 →
              (Char.isDigit c2 = false ∧ c2 ≠ '.') := by
            intro c2 hc2
            rcases heshape with rfl | ⟨⟨ch, d1, rfl, hch⟩, _⟩
            · simp only [List.nil_append] at hc2
              exact ⟨(hX c2 hc2).1, (hX c2 hc2).2.1⟩
            · have hcc : ch = c2 := by simpa using hc2
              subst hcc
              rcases hch with rfl | rfl <;> exact ⟨by decide, by decide⟩
          rw [← h1]
          have hform : (i ++ f1 ++ e1) ++ X = (c0 :: i2) ++ (f1 ++ (e1 ++ X)) := by
            rw [hi0]
            simp
          rw [hform]
          have hc0m : ¬(c0 = '-') := by
            intro hc
            subst hc
            revert hc0d
            decide
          rw [show (c0 :: i2) ++ (f1 ++ (e1 ++ X)) = c0 :: (i2 ++ (f1 ++ (e1 ++ X))) from rfl]
          simp only [scanNumber, if_neg hc0m]
          rw [show c0 :: (i2 ++ (f1 ++ (e1 ++ X))) = (c0 :: i2) ++ (f1 ++ (e1 ++ X)) from rfl,
            ← hi0]
          rw [hirescan (f1 ++ (e1 ++ X)) hfeX]
          simp only [afterIntPart, hfrescan (e1 ++ X) heX,
            herescan X (fun c2 hc2 => ⟨(hX c2 hc2).1, (hX c2 hc2).2.2.1, (hX c2 hc2).2.2.2⟩)]

theorem scanNumConst_tok (cs t r : List Char) (h : scanNumConst cs = some (t, r)) :
    NumTok t := by
  unfold scanNumConst at h
  cases hn : scanNumber cs with
  | some p =>
    rw [hn] at h
    obtain ⟨t0, r0⟩ := p
    have ht : t0 = t ∧ r0 = r := by
      constructor <;> [exact congrArg Prod.fst (Option.some.inj h);
        exact congrArg Prod.snd (Option.some.inj h)]
    obtain ⟨rfl, rfl⟩ := ht
    obtain ⟨⟨c0, t2, rfl, hc0⟩, ⟨cl, hcl, hcld⟩, hres⟩ := scanNumber_rescan cs _ _ hn
    refine ⟨⟨c0, t2, rfl, ?_⟩, ⟨cl, hcl, Or.inl hcld⟩, ?_⟩
    · rcases hc0 with rfl | hd
      · exact Or.inl rfl
      · exact Or.inr (Or.inr (Or.inr hd))
    · intro rs hrs
      have hres2 := hres rs (stopTail_facts rs hrs)
      unfold scanNumConst
      rw [hres2]
  | none =>
    rw [hn] at h
    split at h
    · rename_i p heq
      exact absurd heq (by simp)
    · split at h
      · rename_i r2 heq
        have h1 : (['N', 'a', 'N'] : List Char) = t :=
          congrArg Prod.fst (Option.some.inj h)
        rw [← h1]
        refine ⟨⟨'N', _, rfl, by decide⟩, ⟨'N', by decide, by decide⟩, ?_⟩
        intro rs hrs
        have hsn : scanNumber (['N', 'a', 'N'] ++ rs) = none := by
          simp [scanNumber, scanIntPart]
        unfold scanNumConst
        rw [hsn]
        rfl
      · rename_i r2 heq
        have h1 : (['I', 'n', 'f', 'i', 'n', 'i', 't', 'y'] : List Char) = t :=
          congrArg Prod.fst (Option.some.inj h)
        rw [← h1]
        refine ⟨⟨'I', _, rfl, by decide⟩, ⟨'y', by decide, by decide⟩, ?_⟩
        intro rs hrs
        have hsn : scanNumber (['I', 'n', 'f', 'i', 'n', 'i', 't', 'y'] ++ rs) = none := by
          simp [scanNumber, scanIntPart]
        unfold scanNumConst
        rw [hsn]
        rfl
      · rename_i r2 heq
        have h1 : (['-', 'I', 'n', 'f', 'i', 'n', 'i', 't', 'y'] : List Char) = t :=
          congrArg Prod.fst (Option.some.inj h)
        rw [← h1]
        refine ⟨⟨'-', _, rfl, by decide⟩, ⟨'y', by decide, by decide⟩, ?_⟩
        intro rs hrs
        have hsn : scanNumber (['-', 'I', 'n', 'f', 'i', 'n', 'i', 't', 'y'] ++ rs) = none := by
          simp [scanNumber, scanIntPart]
        unfold scanNumConst
        rw [hsn]
        rfl
      · exact absurd h (by simp)

theorem hexVal_digitChar : ∀ n < 16, hexVal (Nat.digitChar n) = some n := by decide

/-- Printing a string body and reading it back gives the string. -/
theorem parseStr_print (s rest : List Char) :
    parseStrChars (escStr s ++ '"' :: rest) = some (s, rest) := by
  induction s with
  | nil =>
    simp only [escStr, List.map_nil, List.flatten_nil, List.nil_append]
    rw [parseStrChars.eq_def]
    simp
  | cons c s ih =>
    have hesc : escStr (c :: s) = escChar c ++ escStr s := by
      simp [escStr]
    rw [hesc, List.append_assoc]
    by_cases hq : c = '"'
    · subst hq
      rw [show escChar '"' = ['\\', '"'] from rfl]
      rw [show (['\\', '"'] : List Char) ++ (escStr s ++ '"' :: rest) =
        '\\' :: '"' :: (escStr s ++ '"' :: rest) from rfl]
      rw [parseStrChars.eq_def]
      simp only [ih]
      simp
    · by_cases hb : c = '\\'
      · subst hb
        rw [show escChar '\\' = ['\\', '\\'] from rfl]
        rw [show (['\\', '\\'] : List Char) ++ (escStr s ++ '"' :: rest) =
          '\\' :: '\\' :: (escStr s ++ '"' :: rest) from rfl]
        rw [parseStrChars.eq_def]
        simp only [ih]
        simp
      · by_cases hc : c.toNat < 0x20
        · have hdiv : c.toNat / 16 < 16 := by omega
          have hmod : c.toNat % 16 < 16 := by omega
          have hh4 : hex4 '0' '0' (Nat.digitChar (c.toNat / 16))
              (Nat.digitChar (c.toNat % 16)) = some c.toNat := by
            unfold hex4
            rw [show hexVal '0' = some 0 from by decide,
              hexVal_digitChar _ hdiv, hexVal_digitChar _ hmod]
            rw [Option.some.injEq]
            omega
          have hco : charOfCode c.toNat = c := by
            unfold charOfCode
            rw [if_pos (by omega)]
            exact Char.ofNat_toNat c
          rw [show escChar c = ['\\', 'u', '0', '0', Nat.digitChar (c.toNat / 16),
            Nat.digitChar (c.toNat % 16)] from by
              simp only [escChar, if_neg hq, if_neg hb, if_pos hc]]
          rw [show (['\\', 'u', '0', '0', Nat.digitChar (c.toNat / 16),
              Nat.digitChar (c.toNat % 16)] : List Char) ++ (escStr s ++ '"' :: rest) =
            '\\' :: 'u' :: '0' :: '0' :: Nat.digitChar (c.toNat / 16) ::
              Nat.digitChar (c.toNat % 16) :: (escStr s ++ '"' :: rest) from rfl]
          rw [parseStrChars.eq_def]
          simp only [hh4, ih]
          simp [hco]
        · rw [show escChar c = [c] from by
            simp only [escChar, if_neg hq, if_neg hb, if_neg hc]]
          rw [show ([c] : List Char) ++ (escStr s ++ '"' :: rest) =
            c :: (escStr s ++ '"' :: rest) from rfl]
          rw [parseStrChars.eq_def]
          simp only [if_neg hq, if_neg hb, if_neg hc, ih]
          rfl

theorem insertKV_mem (acc : List (List Char × Json)) (k : List Char) (v : Json) :
    ∀ kv ∈ insertKV acc k v, kv.2 = v ∨ kv ∈ acc := by
  induction acc with
  | nil =>
    intro kv hkv
    simp only [insertKV, List.mem_singleton] at hkv
    exact Or.inl (by rw [hkv])
  | cons p t ih =>
    intro kv hkv
    obtain ⟨k0, v0⟩ := p
    simp only [insertKV] at hkv
    by_cases hk0 : k0 = k
    · rw [if_pos hk0] at hkv
      rcases List.mem_cons.mp hkv with rfl | h
      · exact Or.inl rfl
      · exact Or.inr (List.mem_cons_of_mem _ h)
    · rw [if_neg hk0] at hkv
      rcases List.mem_cons.mp hkv with rfl | h
      · exact Or.inr (List.mem_cons_self _ _)
      · rcases ih kv h with h2 | h2
        · exact Or.inl h2
        · exact Or.inr (List.mem_cons_of_mem _ h2)

theorem insertKV_keys (acc : List (List Char × Json)) (k : List Char) (v : Json) :
    (insertKV acc k v).map Prod.fst =
      if k ∈ acc.map Prod.fst then acc.map Prod.fst
      else acc.map Prod.fst ++ [k] := by
  induction acc with
  | nil => simp [insertKV]
  | cons p t ih =>
    obtain ⟨k0, v0⟩ := p
    simp only [insertKV]
    by_cases hk0 : k0 = k
    · subst hk0
      simp
    · rw [if_neg hk0]
      simp only [List.map_cons, ih]
      by_cases hmem : k ∈ t.map Prod.fst
      · simp [hmem, Ne.symm hk0]
      · simp [hmem, Ne.symm hk0]

theorem insertKV_keys_nodup (acc : List (List Char × Json)) (k : List Char) (v : Json)
    (h : (acc.map Prod.fst).Nodup) :
    ((insertKV acc k v).map Prod.fst).Nodup := by
  rw [insertKV_keys]
  by_cases hmem : k ∈ acc.map Prod.fst
  · rwa [if_pos hmem]
  · rw [if_neg hmem]
    rw [List.nodup_append]
    exact ⟨h, List.nodup_singleton k, by simpa using hmem⟩

theorem insertKV_not_mem (acc : List (List Char × Json)) (k : List Char) (v : Json)
    (h : k ∉ acc.map Prod.fst) : insertKV acc k v = acc ++ [(k, v)] := by
  induction acc with
  | nil => rfl
  | cons p t ih =>
    obtain ⟨k0, v0⟩ := p
    have hk0 : k0 ≠ k := by
      intro hk
      exact h (by simp [hk])
    simp only [insertKV, if_neg hk0, List.cons_append]
    rw [ih (fun hm => h (List.mem_cons_of_mem _ hm))]

theorem jrun_wf : ∀ (f : Nat) (m : JMode) (cs : List Char) (v : Json) (rest : List Char),
    jrun f m cs = some (v, rest) →
    (∀ acc, m = JMode.arrCont acc → ∀ x ∈ acc, WF x) →
    (∀ acc, m = JMode.objCont acc → (∀ kv ∈ acc, WF kv.2) ∧ (acc.map Prod.fst).Nodup) →
    WF v := by
  intro f
  induction f with
  | zero =>
    intro m cs v rest h _ _
    exact absurd h (by simp [jrun])
  | succ f ih =>
    intro m cs v rest h hacc hobj
    cases m with
    | val =>
      cases cs with
      | nil => exact absurd h (by simp [jrun])
      | cons c cr =>
        simp only [jrun] at h
        by_cases hbrace : c = '\x7b'
        · simp only [if_pos hbrace] at h
          cases hsw : skipWs cr with
          | nil =>
            simp only [hsw] at h
            exact absurd h (by simp)
          | cons c2 rr =>
            simp only [hsw] at h
            by_cases hc2 : c2 = '\x7d'
            · simp only [if_pos hc2] at h
              have hv : Json.obj [] = v := congrArg Prod.fst (Option.some.inj h)
              rw [← hv]
              exact WF.obj [] (by simp) (by simp)
            · simp only [if_neg hc2] at h
              exact ih _ _ _ _ h (by simp) (by intro acc hacc2; injection hacc2 with he; rw [← he]; exact ⟨by simp, by simp⟩)
        · simp only [if_neg hbrace] at h
          by_cases hbrk : c = '['
          · simp only [if_pos hbrk] at h
            cases hsw : skipWs cr with
            | nil =>
              simp only [hsw] at h
              exact absurd h (by simp)
            | cons c2 rr =>
              simp only [hsw] at h
              by_cases hc2 : c2 = ']'
              · simp only [if_pos hc2] at h
                have hv : Json.arr [] = v := congrArg Prod.fst (Option.some.inj h)
                rw [← hv]
                exact WF.arr [] (by simp)
              · simp only [if_neg hc2] at h
                exact ih _ _ _ _ h
                  (by intro acc hacc2; injection hacc2 with he; rw [← he]; simp)
                  (by simp)
          · simp only [if_neg hbrk] at h
            by_cases hquo : c = '"'
            · simp only [if_pos hquo] at h
              cases hps : parseStrChars cr with
              | none => simp only [hps] at h; exact absurd h (by simp)
              | some p =>
                simp only [hps, Option.map_some] at h
                have hv : Json.str p.1 = v := congrArg Prod.fst (Option.some.inj h)
                rw [← hv]
                exact WF.str p.1
            · simp only [if_neg hquo] at h
              by_cases ht : c = 't'
              · simp only [if_pos ht] at h
                split at h
                · have hv : Json.bool true = v := congrArg Prod.fst (Option.some.inj h)
                  rw [← hv]
                  exact WF.bool true
                · exact absurd h (by simp)
              · simp only [if_neg ht] at h
                by_cases hf : c = 'f'
                · simp only [if_pos hf] at h
                  split at h
                  · have hv : Json.bool false = v := congrArg Prod.fst (Option.some.inj h)
                    rw [← hv]
                    exact WF.bool false
                  · exact absurd h (by simp)
                · simp only [if_neg hf] at h
                  by_cases hn : c = 'n'
                  · simp only [if_pos hn] at h
                    split at h
                    · have hv : Json.null = v := congrArg Prod.fst (Option.some.inj h)
                      rw [← hv]
                      exact WF.null
                    · exact absurd h (by simp)
                  · simp only [if_neg hn] at h
                    cases hsc : scanNumConst (c :: cr) with
                    | none => simp only [hsc] at h; exact absurd h (by simp)
                    | some p =>
                      simp only [hsc, Option.map_some] at h
                      have hv : Json.num p.1 = v := congrArg Prod.fst (Option.some.inj h)
                      rw [← hv]
                      exact WF.num p.1 (scanNumConst_tok (c :: cr) p.1 p.2 (by rw [hsc]))
    | arrCont acc =>
      simp only [jrun] at h
      cases hv1 : jrun f JMode.val cs with
      | none => simp only [hv1] at h; exact absurd h (by simp)
      | some p =>
        obtain ⟨v1, r1⟩ := p
        simp only [hv1] at h
        have hwfv1 : WF v1 := ih _ _ _ _ hv1 (by simp) (by simp)
        cases hsw : skipWs r1 with
        | nil => simp only [hsw] at h; exact absurd h (by simp)
        | cons c2 r2 =>
          simp only [hsw] at h
          by_cases hcm : c2 = ','
          · simp only [if_pos hcm] at h
            refine ih _ _ _ _ h ?_ (by simp)
            intro acc2 hacc2 x hx
            injection hacc2 with he
            rw [← he] at hx
            rcases List.mem_cons.mp hx with rfl | hx2
            · exact hwfv1
            · exact hacc acc rfl x hx2
          · simp only [if_neg hcm] at h
            by_cases hcb : c2 = ']'
            · simp only [if_pos hcb] at h
              have hv : Json.arr (v1 :: acc).reverse = v :=
                congrArg Prod.fst (Option.some.inj h)
              rw [← hv]
              refine WF.arr _ ?_
              intro x hx
              rw [List.mem_reverse] at hx
              rcases List.mem_cons.mp hx with rfl | hx2
              · exact hwfv1
              · exact hacc acc rfl x hx2
            · simp only [if_neg hcb] at h
              exact absurd h (by simp)
    | objCont acc =>
      cases cs with
      | nil => exact absurd h (by simp [jrun])
      | cons c cr =>
        simp only [jrun] at h
        by_cases hquo : c = '"'
        · simp only [if_pos hquo] at h
          cases hps : parseStrChars cr with
          | none => simp only [hps] at h; exact absurd h (by simp)
          | some p =>
            obtain ⟨k, r1⟩ := p
            simp only [hps] at h
            cases hsw : skipWs r1 with
            | nil => simp only [hsw] at h; exact absurd h (by simp)
            | cons c2 r2 =>
              simp only [hsw] at h
              by_cases hcol : c2 = ':'
              · simp only [if_pos hcol] at h
                cases hv1 : jrun f JMode.val (skipWs r2) with
                | none => simp only [hv1] at h; exact absurd h (by simp)
                | some p2 =>
                  obtain ⟨v1, r3⟩ := p2
                  simp only [hv1] at h
                  have hwfv1 : WF v1 := ih _ _ _ _ hv1 (by simp) (by simp)
                  have hobj2 := hobj acc rfl
                  have hins1 : ∀ kv ∈ insertKV acc k v1, WF kv.2 := by
                    intro kv hkv
                    rcases insertKV_mem acc k v1 kv hkv with h2 | h2
                    · rw [h2]
                      exact hwfv1
                    · exact hobj2.1 kv h2
                  have hins2 : ((insertKV acc k v1).map Prod.fst).Nodup :=
                    insertKV_keys_nodup acc k v1 hobj2.2
                  cases hsw3 : skipWs r3 with
                  | nil => simp only [hsw3] at h; exact absurd h (by simp)
                  | cons c3 r4 =>
                    simp only [hsw3] at h
                    by_cases hcm : c3 = ','
                    · simp only [if_pos hcm] at h
                      cases hsw4 : skipWs r4 with
                      | nil => simp only [hsw4] at h; exact absurd h (by simp)
                      | cons c4 r5 =>
                        simp only [hsw4] at h
                        by_cases hq4 : c4 = '"'
                        · simp only [if_pos hq4] at h
                          refine ih _ _ _ _ h (by simp) ?_
                          intro acc2 hacc2
                          injection hacc2 with he
                          rw [← he]
                          exact ⟨hins1, hins2⟩
                        · simp only [if_neg hq4] at h
                          exact absurd h (by simp)
                    · simp only [if_neg hcm] at h
                      by_cases hcb : c3 = '\x7d'
                      · simp only [if_pos hcb] at h
                        have hv : Json.obj (insertKV acc k v1) = v :=
                          congrArg Prod.fst (Option.some.inj h)
                        rw [← hv]
                        exact WF.obj _ hins1 hins2
                      · simp only [if_neg hcb] at h
                        exact absurd h (by simp)
              · simp only [if_neg hcol] at h
                exact absurd h (by simp)
        · simp only [if_neg hquo] at h
          exact absurd h (by simp)

theorem dumps_null : dumps Json.null = ['n', 'u', 'l', 'l'] := by rw [dumps]

theorem dumps_true : dumps (Json.bool true) = ['t', 'r', 'u', 'e'] := by rw [dumps]

theorem dumps_false : dumps (Json.bool false) = ['f', 'a', 'l', 's', 'e'] := by rw [dumps]

theorem dumps_num (t : List Char) : dumps (Json.num t) = t := by rw [dumps]

theorem dumps_str (s : List Char) :
    dumps (Json.str s) = '"' :: (escStr s ++ ['"']) := by rw [dumps]

theorem dumps_arr (xs : List Json) :
    dumps (Json.arr xs) = '[' :: (commaJoin (xs.map dumps) ++ [']']) := by
  rw [dumps]
  rw [List.attach_map_val xs dumps]

theorem dumps_obj (kvs : List (List Char × Json)) :
    dumps (Json.obj kvs) =
      '\x7b' :: (commaJoin (kvs.map dumpsPair) ++ ['\x7d']) := by
  rw [dumps]
  congr 2
  have := List.attach_map_val kvs dumpsPair
  rw [← this]
  rfl

theorem commaJoin_singleton (a : List Char) : commaJoin [a] = a := by
  simp [commaJoin, List.intercalate]

theorem commaJoin_cons2 (a b : List Char) (l : List (List Char)) :
    commaJoin (a :: b :: l) = a ++ ',' :: commaJoin (b :: l) := by
  unfold commaJoin List.intercalate
  rw [List.intersperse_cons_cons]
  simp

theorem pyws_of_jws (c : Char) (h : isJws c = true) : isPyWs c = true := by
  simp only [isJws, Bool.or_eq_true, decide_eq_true_eq] at h
  rcases h with ((rfl | rfl) | rfl) | rfl <;> decide

theorem jws_false_of_pyws_false (c : Char) (h : isPyWs c = false) : isJws c = false := by
  cases hj : isJws c with
  | false => rfl
  | true => rw [pyws_of_jws c hj] at h; cases h

theorem digit_head_props (c : Char) (h : Char.isDigit c = true) :
    isPyWs c = false ∧ c ≠ ']' ∧ c ≠ '\x7d' ∧ c ≠ ',' ∧ c ≠ '\x60' := by
  refine ⟨?_, ?_, ?_, ?_, ?_⟩
  · cases hw : isPyWs c with
    | false => rfl
    | true =>
      simp only [isPyWs, Bool.or_eq_true, decide_eq_true_eq] at hw
      rcases hw with ((((rfl | rfl) | rfl) | rfl) | rfl) | rfl <;> simp at h
  all_goals
    intro he
    subst he
    simp at h

/-- The first character a serialized value emits: never whitespace, never a
closer, never a comma, never a backtick. -/
theorem dumps_head (v : Json) (hwf : WF v) :
    ∃ c t, dumps v = c :: t ∧ isPyWs c = false ∧ isJws c = false ∧
      c ≠ ']' ∧ c ≠ '\x7d' ∧ c ≠ ',' ∧ c ≠ '\x60' := by
  cases hwf with
  | null => exact ⟨'n', _, dumps_null, by decide, by decide, by decide, by decide, by decide, by decide⟩
  | bool b =>
    cases b with
    | true => exact ⟨'t', _, dumps_true, by decide, by decide, by decide, by decide, by decide, by decide⟩
    | false => exact ⟨'f', _, dumps_false, by decide, by decide, by decide, by decide, by decide, by decide⟩
  | num t ht =>
    obtain ⟨⟨c, t2, rfl, hc⟩, -, -⟩ := ht
    rcases hc with rfl | rfl | rfl | hd
    · exact ⟨'-', t2, dumps_num _, by decide, by decide, by decide, by decide, by decide, by decide⟩
    · exact ⟨'N', t2, dumps_num _, by decide, by decide, by decide, by decide, by decide, by decide⟩
    · exact ⟨'I', t2, dumps_num _, by decide, by decide, by decide, by decide, by decide, by decide⟩
    · obtain ⟨hw, h1, h2, h3, h4⟩ := digit_head_props c hd
      exact ⟨c, t2, dumps_num _, hw, jws_false_of_pyws_false c hw, h1, h2, h3, h4⟩
  | str s => exact ⟨'"', _, dumps_str s, by decide, by decide, by decide, by decide, by decide, by decide⟩
  | arr xs h =>
    exact ⟨'[', _, dumps_arr xs, by decide, by decide, by decide, by decide, by decide, by decide⟩
  | obj kvs h hk =>
    exact ⟨'\x7b', _, dumps_obj kvs, by decide, by decide, by decide, by decide, by decide, by decide⟩

/-- The last character a serialized value emits is never whitespace. -/
theorem dumps_last (v : Json) (hwf : WF v) :
    ∃ cl, (dumps v).getLast? = some cl ∧ isPyWs cl = false := by
  cases hwf with
  | null => exact ⟨'l', by rw [dumps_null]; decide, by decide⟩
  | bool b => cases b with
    | true => exact ⟨'e', by rw [dumps_true]; decide, by decide⟩
    | false => exact ⟨'e', by rw [dumps_false]; decide, by decide⟩
  | num t ht =>
    obtain ⟨-, ⟨cl, hcl, hp⟩, -⟩ := ht
    refine ⟨cl, by rw [dumps_num]; exact hcl, ?_⟩
    rcases hp with hd | rfl | rfl
    · exact (digit_head_props cl hd).1
    · decide
    · decide
  | str s =>
    refine ⟨'"', ?_, by decide⟩
    rw [dumps_str]
    rw [lastQ_cons_of_ne _ _ (by simp)]
    exact lastQ_append_right _ _ _ rfl
  | arr xs h =>
    refine ⟨']', ?_, by decide⟩
    rw [dumps_arr]
    rw [lastQ_cons_of_ne _ _ (by simp)]
    exact lastQ_append_right _ _ _ rfl
  | obj kvs h hk =>
    refine ⟨'\x7d', ?_, by decide⟩
    rw [dumps_obj]
    rw [lastQ_cons_of_ne _ _ (by simp)]
    exact lastQ_append_right _ _ _ rfl

theorem commaJoin_cons_ex (b : List Char) (l : List (List Char)) :
    ∃ tl, commaJoin (b :: l) = b ++ tl := by
  cases l with
  | nil => exact ⟨[], by rw [commaJoin_singleton, List.append_nil]⟩
  | cons b2 l2 => exact ⟨',' :: commaJoin (b2 :: l2), commaJoin_cons2 b b2 l2⟩

theorem skipWs_cons_neg (c : Char) (l : List Char) (hc : isJws c = false) :
    skipWs (c :: l) = c :: l := by
  unfold skipWs
  exact dropWhile_cons_neg _ _ _ hc

theorem jrun_print_arrLoop :
    ∀ (xs : List Json) (acc : List Json) (rs : List Char) (f : Nat),
      xs ≠ [] →
      (∀ x ∈ xs, WF x) →
      (∀ x ∈ xs, ∀ rs2, StopTail rs2 → ∀ g, (dumps x).length ≤ g →
        jrun g JMode.val (dumps x ++ rs2) = some (x, rs2)) →
      StopTail rs →
      (commaJoin (xs.map dumps)).length + 1 ≤ f →
      jrun f (JMode.arrCont acc) (commaJoin (xs.map dumps) ++ (']' :: rs)) =
        some (Json.arr (acc.reverse ++ xs), rs) := by
  intro xs
  induction xs with
  | nil => intro acc rs f hne _ _ _ _; exact absurd rfl hne
  | cons x xs ih =>
    intro acc rs f hne hwf hel hrs hfuel
    obtain ⟨cx, tx, hdx, -, hjx, -, -, -, -⟩ := dumps_head x (hwf x (List.mem_cons_self x xs))
    have hdxlen : 1 ≤ (dumps x).length := by rw [hdx]; simp
    cases f with
    | zero => exact absurd hfuel (by omega)
    | succ f =>
      cases xs with
      | nil =>
        rw [List.map_singleton, commaJoin_singleton] at hfuel ⊢
        simp only [jrun]
        simp only [hel x (List.mem_cons_self x []) (']' :: rs)
          (Or.inr ⟨']', rs, rfl, Or.inr (Or.inl rfl)⟩) f (by omega)]
        rw [skipWs_cons_neg ']' rs (by decide)]
        simp
      | cons y ys =>
        rw [List.map_cons, List.map_cons, commaJoin_cons2]
        obtain ⟨tl, htl⟩ := commaJoin_cons_ex (dumps y) (ys.map dumps)
        obtain ⟨cy, ty, hdy, -, hjy, -, -, -, -⟩ :=
          dumps_head y (hwf y (List.mem_cons_of_mem x (List.mem_cons_self y ys)))
        have hlen2 : (commaJoin (dumps x :: dumps y :: ys.map dumps)).length =
            (dumps x).length + 1 + (commaJoin (dumps y :: ys.map dumps)).length := by
          rw [commaJoin_cons2]
          simp only [List.length_append, List.length_cons]
          omega
        rw [show (dumps x ++ ',' :: commaJoin (dumps y :: ys.map dumps)) ++ (']' :: rs) =
          dumps x ++ (',' :: (commaJoin (dumps y :: ys.map dumps) ++ (']' :: rs))) from by
            simp]
        simp only [jrun]
        simp only [hel x (List.mem_cons_self x (y :: ys))
          (',' :: (commaJoin (dumps y :: ys.map dumps) ++ (']' :: rs)))
          (Or.inr ⟨',', commaJoin (dumps y :: ys.map dumps) ++ (']' :: rs), rfl, Or.inl rfl⟩) f (by
            rw [List.map_cons, List.map_cons, hlen2] at hfuel
            omega)]
        simp only [skipWs_cons_neg ','
          (commaJoin (dumps y :: ys.map dumps) ++ (']' :: rs)) (by decide)]
        rw [if_pos trivial]
        have hswj : skipWs (commaJoin (dumps y :: ys.map dumps) ++ (']' :: rs)) =
            commaJoin (dumps y :: ys.map dumps) ++ (']' :: rs) := by
          rw [htl, hdy]
          rw [show (cy :: ty ++ tl) ++ (']' :: rs) = cy :: (ty ++ tl ++ (']' :: rs)) from by
            simp]
          exact skipWs_cons_neg cy _ hjy
        rw [hswj]
        have hih := ih (x :: acc) rs f (by simp)
          (fun z hz => hwf z (List.mem_cons_of_mem x hz))
          (fun z hz => hel z (List.mem_cons_of_mem x hz)) hrs (by
            rw [List.map_cons, List.map_cons, hlen2] at hfuel
            rw [List.map_cons]
            omega)
        rw [List.map_cons] at hih
        rw [hih]
        simp

theorem dumpsPair_len (k : List Char) (v : Json) :
    (dumpsPair (k, v)).length = (escStr k).length + (dumps v).length + 3 := by
  simp [dumpsPair]
  omega

theorem jrun_print_objLoop :
    ∀ (kvs : List (List Char × Json)) (acc : List (List Char × Json))
      (rs : List Char) (f : Nat),
      kvs ≠ [] →
      (∀ kv ∈ kvs, WF kv.2) →
      (∀ kv ∈ kvs, ∀ rs2, StopTail rs2 → ∀ g, (dumps kv.2).length ≤ g →
        jrun g JMode.val (dumps kv.2 ++ rs2) = some (kv.2, rs2)) →
      ((acc.map Prod.fst) ++ (kvs.map Prod.fst)).Nodup →
      StopTail rs →
      (commaJoin (kvs.map dumpsPair)).length + 1 ≤ f →
      jrun f (JMode.objCont acc) (commaJoin (kvs.map dumpsPair) ++ ('\x7d' :: rs)) =
        some (Json.obj (acc ++ kvs), rs) := by
  intro kvs
  induction kvs with
  | nil => intro acc rs f hne _ _ _ _ _; exact absurd rfl hne
  | cons kv rest ih =>
    intro acc rs f hne hwf hel hnd hrs hfuel
    obtain ⟨k, v⟩ := kv
    have hkwf : WF v := hwf (k, v) (List.mem_cons_self _ _)
    obtain ⟨cv, tv, hdv, -, hjv, -, -, -, -⟩ := dumps_head v hkwf
    have hkn : k ∉ acc.map Prod.fst := by
      rw [List.nodup_append] at hnd
      exact fun hk => hnd.2.2 hk (by simp)
    have hdvlen : 1 ≤ (dumps v).length := by rw [hdv]; simp
    cases f with
    | zero => exact absurd hfuel (by omega)
    | succ f =>
      cases rest with
      | nil =>
        rw [List.map_singleton, commaJoin_singleton] at hfuel ⊢
        rw [dumpsPair_len] at hfuel
        rw [show dumpsPair (k, v) ++ ('\x7d' :: rs) =
            '"' :: (escStr k ++ '"' :: (':' :: (dumps v ++ '\x7d' :: rs))) from by
          simp [dumpsPair]]
        simp only [jrun]
        rw [if_pos trivial]
        simp only [parseStr_print k (':' :: (dumps v ++ '\x7d' :: rs))]
        simp only [skipWs_cons_neg ':' (dumps v ++ '\x7d' :: rs) (by decide)]
        rw [if_pos trivial]
        have hsw : skipWs (dumps v ++ '\x7d' :: rs) = dumps v ++ '\x7d' :: rs := by
          rw [hdv]
          rw [show (cv :: tv) ++ '\x7d' :: rs = cv :: (tv ++ '\x7d' :: rs) from rfl]
          exact skipWs_cons_neg cv _ hjv
        rw [hsw]
        simp only [hel (k, v) (List.mem_cons_self _ _) ('\x7d' :: rs)
          (Or.inr ⟨'\x7d', rs, rfl, Or.inr (Or.inr rfl)⟩) f (by
            show (dumps v).length ≤ f
            omega)]
        simp only [skipWs_cons_neg '\x7d' rs (by decide)]
        rw [if_neg (by decide)]
        rw [if_pos trivial]
        rw [insertKV_not_mem acc k v hkn]
      | cons kv2 rest2 =>
        rw [List.map_cons, List.map_cons, commaJoin_cons2]
        obtain ⟨tl, htl⟩ := commaJoin_cons_ex (dumpsPair kv2) (rest2.map dumpsPair)
        have hlen2 : (commaJoin (dumpsPair (k, v) :: dumpsPair kv2 :: rest2.map dumpsPair)).length =
            (dumpsPair (k, v)).length + 1 +
              (commaJoin (dumpsPair kv2 :: rest2.map dumpsPair)).length := by
          rw [commaJoin_cons2]
          simp only [List.length_append, List.length_cons]
          omega
        rw [show (dumpsPair (k, v) ++ ',' :: commaJoin (dumpsPair kv2 :: rest2.map dumpsPair)) ++
            ('\x7d' :: rs) =
            '"' :: (escStr k ++ '"' :: (':' :: (dumps v ++
              (',' :: (commaJoin (dumpsPair kv2 :: rest2.map dumpsPair) ++ '\x7d' :: rs))))) from by
          simp [dumpsPair]]
        simp only [jrun]
        rw [if_pos trivial]
        simp only [parseStr_print k (':' :: (dumps v ++
          (',' :: (commaJoin (dumpsPair kv2 :: rest2.map dumpsPair) ++ '\x7d' :: rs))))]
        simp only [skipWs_cons_neg ':' (dumps v ++
          (',' :: (commaJoin (dumpsPair kv2 :: rest2.map dumpsPair) ++ '\x7d' :: rs))) (by decide)]
        rw [if_pos trivial]
        have hsw : skipWs (dumps v ++
            (',' :: (commaJoin (dumpsPair kv2 :: rest2.map dumpsPair) ++ '\x7d' :: rs))) =
            dumps v ++ (',' :: (commaJoin (dumpsPair kv2 :: rest2.map dumpsPair) ++ '\x7d' :: rs)) := by
          rw [hdv]
          rw [show (cv :: tv) ++ (',' :: (commaJoin (dumpsPair kv2 :: rest2.map dumpsPair) ++
            '\x7d' :: rs)) = cv :: (tv ++ (',' :: (commaJoin (dumpsPair kv2 :: rest2.map dumpsPair) ++
            '\x7d' :: rs))) from rfl]
          exact skipWs_cons_neg cv _ hjv
        rw [hsw]
        simp only [hel (k, v) (List.mem_cons_self _ _)
          (',' :: (commaJoin (dumpsPair kv2 :: rest2.map dumpsPair) ++ '\x7d' :: rs))
          (Or.inr ⟨',', commaJoin (dumpsPair kv2 :: rest2.map dumpsPair) ++ '\x7d' :: rs,
            rfl, Or.inl rfl⟩) f (by
            show (dumps v).length ≤ f
            rw [List.map_cons, List.map_cons, hlen2, dumpsPair_len] at hfuel
            omega)]
        simp only [skipWs_cons_neg ','
          (commaJoin (dumpsPair kv2 :: rest2.map dumpsPair) ++ '\x7d' :: rs) (by decide)]
        rw [if_pos trivial]
        have hq2 : ∃ t2, dumpsPair kv2 = '"' :: t2 := by
          obtain ⟨k2, v2⟩ := kv2
          exact ⟨_, rfl⟩
        obtain ⟨t2, ht2⟩ := hq2
        have hswj : skipWs (commaJoin (dumpsPair kv2 :: rest2.map dumpsPair) ++ '\x7d' :: rs) =
            commaJoin (dumpsPair kv2 :: rest2.map dumpsPair) ++ '\x7d' :: rs := by
          rw [htl, ht2]
          rw [show ('"' :: t2 ++ tl) ++ ('\x7d' :: rs) = '"' :: (t2 ++ tl ++ ('\x7d' :: rs)) from by
            simp]
          exact skipWs_cons_neg '"' _ (by decide)
        rw [hswj]
        have hcons : commaJoin (dumpsPair kv2 :: rest2.map dumpsPair) ++ '\x7d' :: rs =
            '"' :: (t2 ++ tl ++ ('\x7d' :: rs)) := by
          rw [htl, ht2]
          simp
        simp only [hcons]
        rw [if_pos trivial]
        rw [← hcons]
        rw [insertKV_not_mem acc k v hkn]
        have hih := ih (acc ++ [(k, v)]) rs f (by simp)
          (fun z hz => hwf z (List.mem_cons_of_mem _ hz))
          (fun z hz => hel z (List.mem_cons_of_mem _ hz))
          (by simpa using hnd) hrs (by
            rw [List.map_cons, List.map_cons, hlen2, dumpsPair_len] at hfuel
            rw [List.map_cons]
            omega)
        rw [List.map_cons] at hih
        rw [hih]
        simp

theorem digit_not_lead (c : Char) (h : Char.isDigit c = true) :
    c ≠ '\x7b' ∧ c ≠ '[' ∧ c ≠ '"' ∧ c ≠ 't' ∧ c ≠ 'f' ∧ c ≠ 'n' := by
  refine ⟨?_, ?_, ?_, ?_, ?_, ?_⟩
  all_goals
    intro he
    subst he
    simp at h

/-- Reading back the serialized text of a well-formed value yields the value,
with any stop-tail left untouched. -/
theorem jrun_print : ∀ (v : Json), WF v → ∀ rs, StopTail rs →
    ∀ f, (dumps v).length ≤ f →
    jrun f JMode.val (dumps v ++ rs) = some (v, rs) := by
  intro v hwf
  induction hwf with
  | null =>
    intro rs hrs f hf
    rw [dumps_null] at hf ⊢
    cases f with
    | zero => exact absurd hf (by simp)
    | succ f => simp [jrun]
  | bool b =>
    intro rs hrs f hf
    cases b with
    | true =>
      rw [dumps_true] at hf ⊢
      cases f with
      | zero => exact absurd hf (by simp)
      | succ f => simp [jrun]
    | false =>
      rw [dumps_false] at hf ⊢
      cases f with
      | zero => exact absurd hf (by simp)
      | succ f => simp [jrun]
  | num t ht =>
    intro rs hrs f hf
    obtain ⟨hhead, -, hsc⟩ := ht
    obtain ⟨c, t2, htc, hc⟩ := hhead
    rw [dumps_num] at hf ⊢
    have hn : c ≠ '\x7b' ∧ c ≠ '[' ∧ c ≠ '"' ∧ c ≠ 't' ∧ c ≠ 'f' ∧ c ≠ 'n' := by
      rcases hc with rfl | rfl | rfl | hd
      · exact ⟨by decide, by decide, by decide, by decide, by decide, by decide⟩
      · exact ⟨by decide, by decide, by decide, by decide, by decide, by decide⟩
      · exact ⟨by decide, by decide, by decide, by decide, by decide, by decide⟩
      · exact digit_not_lead c hd
    obtain ⟨hn1, hn2, hn3, hn4, hn5, hn6⟩ := hn
    subst htc
    cases f with
    | zero => exact absurd hf (by simp)
    | succ f =>
      rw [show (c :: t2) ++ rs = c :: (t2 ++ rs) from rfl]
      simp only [jrun]
      rw [if_neg hn1, if_neg hn2, if_neg hn3, if_neg hn4, if_neg hn5, if_neg hn6]
      have hres := hsc rs hrs
      rw [List.cons_append] at hres
      rw [hres]
      rfl
  | str s =>
    intro rs hrs f hf
    rw [dumps_str] at hf ⊢
    cases f with
    | zero => exact absurd hf (by simp)
    | succ f =>
      rw [show ('"' :: (escStr s ++ ['"'])) ++ rs = '"' :: (escStr s ++ '"' :: rs) from by
        simp]
      simp only [jrun]
      rw [if_neg (by decide), if_neg (by decide)]
      rw [if_pos trivial]
      rw [parseStr_print s rs]
      rfl
  | arr xs h ih =>
    intro rs hrs f hf
    rw [dumps_arr] at hf ⊢
    cases f with
    | zero => exact absurd hf (by simp)
    | succ f =>
      rw [show ('[' :: (commaJoin (xs.map dumps) ++ [']'])) ++ rs =
          '[' :: (commaJoin (xs.map dumps) ++ ']' :: rs) from by simp]
      simp only [jrun]
      rw [if_neg (by decide)]
      rw [if_pos trivial]
      cases xs with
      | nil =>
        rw [show commaJoin (List.map dumps []) ++ ']' :: rs = ']' :: rs from by
          simp [commaJoin, List.intercalate]]
        simp only [skipWs_cons_neg ']' rs (by decide)]
        rw [if_pos trivial]
      | cons x xs2 =>
        rw [List.map_cons]
        obtain ⟨tl, htl⟩ := commaJoin_cons_ex (dumps x) (xs2.map dumps)
        obtain ⟨cx, tx, hdx, -, hjx, hnx, -, -, -⟩ :=
          dumps_head x (h x (List.mem_cons_self x xs2))
        have hcons : commaJoin (dumps x :: xs2.map dumps) ++ ']' :: rs =
            cx :: (tx ++ tl ++ ']' :: rs) := by
          rw [htl, hdx]
          simp
        have hsw : skipWs (commaJoin (dumps x :: xs2.map dumps) ++ ']' :: rs) =
            commaJoin (dumps x :: xs2.map dumps) ++ ']' :: rs := by
          rw [hcons]
          exact skipWs_cons_neg cx _ hjx
        rw [hsw]
        simp only [hcons]
        rw [if_neg hnx]
        rw [← hcons]
        have hloop := jrun_print_arrLoop (x :: xs2) [] rs f (by simp) h ih hrs (by
          rw [List.map_cons] at hf
          simp only [List.length_cons, List.length_append, List.length_nil] at hf
          rw [List.map_cons]
          omega)
        rw [List.map_cons] at hloop
        rw [hloop]
        simp
  | obj kvs h hk ih =>
    intro rs hrs f hf
    rw [dumps_obj] at hf ⊢
    cases f with
    | zero => exact absurd hf (by simp)
    | succ f =>
      rw [show ('\x7b' :: (commaJoin (kvs.map dumpsPair) ++ ['\x7d'])) ++ rs =
          '\x7b' :: (commaJoin (kvs.map dumpsPair) ++ '\x7d' :: rs) from by simp]
      simp only [jrun]
      rw [if_pos trivial]
      cases kvs with
      | nil =>
        rw [show commaJoin (List.map dumpsPair []) ++ '\x7d' :: rs = '\x7d' :: rs from by
          simp [commaJoin, List.intercalate]]
        simp only [skipWs_cons_neg '\x7d' rs (by decide)]
        rw [if_pos trivial]
      | cons kv kvs2 =>
        rw [List.map_cons]
        obtain ⟨tl, htl⟩ := commaJoin_cons_ex (dumpsPair kv) (kvs2.map dumpsPair)
        have hq2 : ∃ t2, dumpsPair kv = '"' :: t2 := by
          obtain ⟨k2, v2⟩ := kv
          exact ⟨_, rfl⟩
        obtain ⟨t2, ht2⟩ := hq2
        have hcons : commaJoin (dumpsPair kv :: kvs2.map dumpsPair) ++ '\x7d' :: rs =
            '"' :: (t2 ++ tl ++ '\x7d' :: rs) := by
          rw [htl, ht2]
          simp
        have hsw : skipWs (commaJoin (dumpsPair kv :: kvs2.map dumpsPair) ++ '\x7d' :: rs) =
            commaJoin (dumpsPair kv :: kvs2.map dumpsPair) ++ '\x7d' :: rs := by
          rw [hcons]
          exact skipWs_cons_neg '"' _ (by decide)
        rw [hsw]
        simp only [hcons]
        rw [if_neg (by decide)]
        rw [← hcons]
        have hloop := jrun_print_objLoop (kv :: kvs2) [] rs f (by simp) h ih
          (by simpa using hk) hrs (by
          rw [List.map_cons] at hf
          simp only [List.length_cons, List.length_append, List.length_nil] at hf
          rw [List.map_cons]
          omega)
        rw [List.map_cons] at hloop
        rw [hloop]
        simp

theorem ticks_not_prefix (c : Char) (t : List Char) (h : c ≠ '\x60') :
    ticks.isPrefixOf (c :: t) = false := by
  simp only [ticks, List.isPrefixOf, Bool.and_eq_false_iff]
  exact Or.inl (by simpa using Ne.symm h)

/-- json.loads reads back the canonical serialization of a well-formed value. -/
theorem json_loads_dumps (v : Json) (hwf : WF v) : json_loads (dumps v) = some v := by
  obtain ⟨c, t, hd, hpw, hj, -, -, -, -⟩ := dumps_head v hwf
  have hsw : skipWs (dumps v) = dumps v := by
    rw [hd]
    exact skipWs_cons_neg c t hj
  unfold json_loads
  rw [hsw]
  have hpr := jrun_print v hwf [] (Or.inl rfl) ((dumps v).length + (dumps v).length + 2)
    (by omega)
  rw [List.append_nil] at hpr
  simp only [hpr]
  simp [skipWs]

/-- Any value json.loads returns is well formed. -/
theorem json_loads_wf (cs : List Char) (v : Json) (h : json_loads cs = some v) : WF v := by
  unfold json_loads at h
  cases hj : jrun (cs.length + cs.length + 2) JMode.val (skipWs cs) with
  | none =>
    rw [hj] at h
    exact absurd h (by simp)
  | some p =>
    obtain ⟨w, rest⟩ := p
    simp only [hj] at h
    by_cases hr : skipWs rest = []
    · rw [if_pos hr] at h
      have hwv : w = v := by injection h
      subst hwv
      exact jrun_wf _ _ _ _ _ hj (fun acc ha => JMode.noConfusion ha)
        (fun acc ha => JMode.noConfusion ha)
    · rw [if_neg hr] at h
      exact absurd h (by simp)

/-- The routine maps a canonical serialization straight back to its value:
the text strips to itself, carries no fence, and the direct strategy wins. -/
theorem pjr_dumps (v : Json) (hwf : WF v) :
    parse_json_response (dumps v) = Except.ok v := by
  obtain ⟨c, t, hd, hpw, hj, -, -, -, htick⟩ := dumps_head v hwf
  obtain ⟨cl, hcl, hclw⟩ := dumps_last v hwf
  have hstrip : pyStrip (dumps v) = dumps v :=
    pyStrip_eq_self _ (by rw [hd]; exact dropWhile_cons_neg _ _ _ hpw)
      (dropWhile_rev_of_getLastQ _ _ hcl hclw)
  have hnf : ticks.isPrefixOf (pyStrip (dumps v)) = false := by
    rw [hstrip, hd]
    exact ticks_not_prefix c t htick
  have hpre : preprocText (dumps v) = dumps v := by
    rw [preprocText_no_fence _ hnf, hstrip]
  rw [pjr_eq, hpre]
  simp only [json_loads_dumps v hwf]

/-- Any value the routine returns came from json.loads on some text, so it
is well formed. -/
theorem pjr_wf (s : List Char) (v : Json) (h : parse_json_response s = Except.ok v) :
    WF v := by
  rw [pjr_eq] at h
  cases h1 : json_loads (preprocText s) with
  | some w =>
    simp only [h1] at h
    have hv : w = v := by injection h
    exact hv ▸ json_loads_wf _ _ h1
  | none =>
    simp only [h1] at h
    cases h2 : (spanBr '[' ']' (preprocText s)).bind json_loads with
    | some w =>
      simp only [h2] at h
      have hv : w = v := by injection h
      obtain ⟨g, hg, hl⟩ := Option.bind_eq_some.mp h2
      exact hv ▸ json_loads_wf _ _ hl
    | none =>
      simp only [h2] at h
      cases h3 : (spanBr '\x7b' '\x7d' (preprocText s)).bind json_loads with
      | some w =>
        simp only [h3] at h
        have hv : w = v := by injection h
        obtain ⟨g, hg, hl⟩ := Option.bind_eq_some.mp h3
        exact hv ▸ json_loads_wf _ _ hl
      | none =>
        simp only [h3] at h
        exact absurd h (by simp)

/-- Claim C1: for every input string, parse_json_response either returns a
value produced by one of the recovery strategies or raises, and it raises
exactly when the de-fenced direct parse, the array-substring parse and the
object-substring parse all fail; in particular the empty string raises, and
no partial value is ever returned. -/
theorem claim1_total_error_iff :
    (∀ s : List Char,
      ((∃ e, parse_json_response s = Except.error e) ↔
        (json_loads (preprocText s) = none ∧
         (spanBr '[' ']' (preprocText s)).bind json_loads = none ∧
         (spanBr '\x7b' '\x7d' (preprocText s)).bind json_loads = none))) ∧
    (∀ s v, parse_json_response s = Except.ok v →
      json_loads (preprocText s) = some v ∨
      (spanBr '[' ']' (preprocText s)).bind json_loads = some v ∨
      (spanBr '\x7b' '\x7d' (preprocText s)).bind json_loads = some v) ∧
    parse_json_response [] = Except.error (errMsg []) := by
  refine ⟨?_, ?_, rfl⟩
  · intro s
    cases h1 : json_loads (preprocText s) with
    | some v =>
      have hv : parse_json_response s = Except.ok v := by rw [pjr_eq s, h1]
      constructor
      · rintro ⟨e, he⟩
        rw [hv] at he
        exact Except.noConfusion he
      · rintro ⟨hh, -⟩
        exact Option.noConfusion hh
    | none =>
      cases h2 : (spanBr '[' ']' (preprocText s)).bind json_loads with
      | some v =>
        have hv : parse_json_response s = Except.ok v := by rw [pjr_eq s, h1, h2]
        constructor
        · rintro ⟨e, he⟩
          rw [hv] at he
          exact Except.noConfusion he
        · rintro ⟨-, hh, -⟩
          exact Option.noConfusion hh
      | none =>
        cases h3 : (spanBr '\x7b' '\x7d' (preprocText s)).bind json_loads with
        | some v =>
          have hv : parse_json_response s = Except.ok v := by
            rw [pjr_eq s, h1, h2, h3]
          constructor
          · rintro ⟨e, he⟩
            rw [hv] at he
            exact Except.noConfusion he
          · rintro ⟨-, -, hh⟩
            exact Option.noConfusion hh
        | none =>
          have hv : parse_json_response s = Except.error (errMsg (preprocText s)) := by
            rw [pjr_eq s, h1, h2, h3]
          exact ⟨fun _ => ⟨rfl, rfl, rfl⟩, fun _ => ⟨_, hv⟩⟩
  · intro s v h
    cases h1 : json_loads (preprocText s) with
    | some w =>
      have hv : parse_json_response s = Except.ok w := by rw [pjr_eq s, h1]
      rw [hv] at h
      exact Or.inl (congrArg some (Except.ok.inj h))
    | none =>
      cases h2 : (spanBr '[' ']' (preprocText s)).bind json_loads with
      | some w =>
        have hv : parse_json_response s = Except.ok w := by rw [pjr_eq s, h1, h2]
        rw [hv] at h
        exact Or.inr (Or.inl (congrArg some (Except.ok.inj h)))
      | none =>
        cases h3 : (spanBr '\x7b' '\x7d' (preprocText s)).bind json_loads with
        | some w =>
          have hv : parse_json_response s = Except.ok w := by rw [pjr_eq s, h1, h2, h3]
          rw [hv] at h
          exact Or.inr (Or.inr (congrArg some (Except.ok.inj h)))
        | none =>
          have hv : parse_json_response s = Except.error (errMsg (preprocText s)) := by
            rw [pjr_eq s, h1, h2, h3]
          rw [hv] at h
          exact Except.noConfusion h

/-- Claim C1 witness: the claim applied to a concrete successful input. -/
theorem claim1_witness :
    json_loads (preprocText (("[1]").toList)) = some (Json.arr [Json.num ['1']]) ∨
    (spanBr '[' ']' (preprocText (("[1]").toList))).bind json_loads =
      some (Json.arr [Json.num ['1']]) ∨
    (spanBr '\x7b' '\x7d' (preprocText (("[1]").toList))).bind json_loads =
      some (Json.arr [Json.num ['1']]) :=
  claim1_total_error_iff.2.1 _ _ (by rfl)

/-- Claim C2 counterexample: on an input whose only brackets sit on the
fence line, scanning the original text would recover an array, but the code
scans the de-fenced text and raises instead, so the strategies do not scan
the original input text. -/
theorem claim2_counterexample :
    (spanBr '[' ']' (("\x60\x60\x60[1, 2]\nnot json").toList)).bind json_loads =
        some (Json.arr [Json.num ['1'], Json.num ['2']]) ∧
    parse_json_response (("\x60\x60\x60[1, 2]\nnot json").toList) =
        Except.error (errMsg (("not json").toList)) ∧
    parse_json_response (("\x60\x60\x60[1, 2]\nnot json").toList) ≠
        Except.ok (Json.arr [Json.num ['1'], Json.num ['2']]) := by
  have hval : parse_json_response (("\x60\x60\x60[1, 2]\nnot json").toList) =
      Except.error (errMsg (("not json").toList)) := by rfl
  refine ⟨by rfl, hval, fun h => ?_⟩
  rw [hval] at h
  exact Except.noConfusion h

/-- Claim C2 amended: when the direct parse fails, the array-substring
strategy scans the trimmed and de-fenced text, and the object-substring
strategy likewise, each returning its parse on success. -/
theorem claim2_amended :
    (∀ s v, json_loads (preprocText s) = none →
      (spanBr '[' ']' (preprocText s)).bind json_loads = some v →
      parse_json_response s = Except.ok v) ∧
    (∀ s v, json_loads (preprocText s) = none →
      (spanBr '[' ']' (preprocText s)).bind json_loads = none →
      (spanBr '\x7b' '\x7d' (preprocText s)).bind json_loads = some v →
      parse_json_response s = Except.ok v) := by
  constructor
  · intro s v h1 h2
    rw [pjr_eq s, h1, h2]
  · intro s v h1 h2 h3
    rw [pjr_eq s, h1, h2, h3]

/-- Claim C2 witness: the amended claim applied to a concrete input. -/
theorem claim2_witness :
    parse_json_response (("x [1] y").toList) = Except.ok (Json.arr [Json.num ['1']]) :=
  claim2_amended.1 _ _ (by rfl) (by rfl)

/-- Claim C3 counterexample: on a fenced unparseable input the raised
message embeds the de-fenced text, and the first 200 characters of the
original input are not contained in it. -/
theorem claim3_counterexample :
    parse_json_response (("\x60\x60\x60json\nhello").toList) =
        Except.error (errMsg (("hello").toList)) ∧
    ¬ ((("\x60\x60\x60json\nhello").toList).take 200 <:+:
        errMsg (("hello").toList)) := by
  refine ⟨by rfl, fun h => ?_⟩
  have hm : '\x60' ∈ (("\x60\x60\x60json\nhello").toList).take 200 := by decide
  have hnot : '\x60' ∉ errMsg (("hello").toList) := by decide
  exact hnot (h.subset hm)

/-- Claim C3 amended: whenever the routine raises, the message is the fixed
prefix followed by the first 200 characters of the trimmed and de-fenced
text, which it therefore contains. -/
theorem claim3_amended (s e : List Char)
    (h : parse_json_response s = Except.error e) :
    e = errMsg (preprocText s) ∧ (preprocText s).take 200 <:+: e := by
  cases h1 : json_loads (preprocText s) with
  | some v =>
    rw [pjr_eq s, h1] at h
    exact Except.noConfusion h
  | none =>
    cases h2 : (spanBr '[' ']' (preprocText s)).bind json_loads with
    | some v =>
      rw [pjr_eq s, h1, h2] at h
      exact Except.noConfusion h
    | none =>
      cases h3 : (spanBr '\x7b' '\x7d' (preprocText s)).bind json_loads with
      | some v =>
        rw [pjr_eq s, h1, h2, h3] at h
        exact Except.noConfusion h
      | none =>
        rw [pjr_eq s, h1, h2, h3] at h
        have he : e = errMsg (preprocText s) := (Except.error.inj h).symm
        refine ⟨he, ?_⟩
        rw [he]
        exact ⟨("Could not parse JSON from response: ").toList, ("...").toList, rfl⟩

/-- Claim C3 witness: the amended claim applied to a concrete failing
input. -/
theorem claim3_witness :
    errMsg (("nope").toList) = errMsg (preprocText (("nope").toList)) ∧
    (preprocText (("nope").toList)).take 200 <:+: errMsg (("nope").toList) :=
  claim3_amended _ _ (by rfl)

/-- Claim C4: when the stripped input starts with a fence marker, the text
the parser sees equals the spec-worded asymmetric de-fencing: first line
removed, last line removed too exactly when it strips to bare backticks,
then re-trimmed. -/
theorem claim4_defence_asymmetry (s : List Char)
    (h : ticks.isPrefixOf (pyStrip s) = true) :
    preprocText s = deFenceClaim (pyStrip s) := by
  rw [preprocText_fence s h, deFence_eq_claim]

/-- Claim C4 witness: the claim applied to a concrete fenced input. -/
theorem claim4_witness :
    preprocText (("\x60\x60\x60json\n[1]\n\x60\x60\x60").toList) =
      deFenceClaim (pyStrip (("\x60\x60\x60json\n[1]\n\x60\x60\x60").toList)) :=
  claim4_defence_asymmetry _ (by rfl)

/-- Claim C5: a valid structured-value text surrounded only by whitespace
is recovered as its strict parse through the direct path. -/
theorem claim5_direct_path (wsa wsb S : List Char) (v : Json) (c0 cl : Char)
    (hwsa : ∀ c ∈ wsa, isPyWs c = true) (hwsb : ∀ c ∈ wsb, isPyWs c = true)
    (hhead : S.head? = some c0) (hc0 : c0 = '[' ∨ c0 = '\x7b')
    (hlast : S.getLast? = some cl) (hcl : cl = ']' ∨ cl = '\x7d')
    (hv : json_loads S = some v) :
    parse_json_response (wsa ++ S ++ wsb) = Except.ok v := by
  have hc0w : isPyWs c0 = false := by rcases hc0 with h | h <;> subst h <;> rfl
  have hclw : isPyWs cl = false := by rcases hcl with h | h <;> subst h <;> rfl
  have hstrip : pyStrip (wsa ++ S ++ wsb) = S := by
    rw [pyStrip_decomp wsa wsb S c0 hhead hc0w cl hlast hclw]
    have h1 : wsa.dropWhile isPyWs = [] := by
      rw [List.dropWhile_eq_nil_iff]
      exact fun c hc => hwsa c hc
    have h2 : wsb.reverse.dropWhile isPyWs = [] := by
      rw [List.dropWhile_eq_nil_iff]
      exact fun c hc => hwsb c (List.mem_reverse.mp hc)
    simp [h1, h2]
  have hfence : ticks.isPrefixOf (pyStrip (wsa ++ S ++ wsb)) = false := by
    rw [hstrip]
    cases S with
    | nil => exact absurd hhead (by simp)
    | cons a S' =>
      have ha : a = c0 := by simpa using hhead
      subst ha
      rcases hc0 with h | h <;> subst h <;> simp [ticks, List.isPrefixOf]
  have hpre : preprocText (wsa ++ S ++ wsb) = S := by
    rw [preprocText_no_fence _ hfence, hstrip]
  rw [pjr_eq, hpre, hv]

/-- Claim C5 witness: the claim applied to a concrete input. -/
theorem claim5_witness :
    parse_json_response (((" ").toList) ++ (("[1]").toList) ++ (("\n").toList)) =
      Except.ok (Json.arr [Json.num ['1']]) :=
  claim5_direct_path _ _ _ _ '[' ']' (by decide) (by decide) (by rfl)
    (Or.inl rfl) (by rfl) (Or.inl rfl) (by rfl)

/-- Claim C6: a valid structured-value text wrapped in a markdown fence
with an optional language tag is recovered as its strict parse. -/
theorem claim6_fenced (lang T : List Char) (v : Json)
    (hlang : '\n' ∉ lang)
    (hT : pyStrip T = T)
    (hv : json_loads T = some v) :
    parse_json_response (ticks ++ lang ++ '\n' :: (T ++ '\n' :: ticks)) =
      Except.ok v := by
  have hform : ticks ++ lang ++ '\n' :: (T ++ '\n' :: ticks) =
      (ticks ++ lang ++ '\n' :: (T ++ ['\n'])) ++ ticks := by simp
  have hgl : (ticks ++ lang ++ '\n' :: (T ++ '\n' :: ticks)).getLast? = some '\x60' := by
    rw [hform, List.getLast?_append]
    rfl
  have hd1 : (ticks ++ lang ++ '\n' :: (T ++ '\n' :: ticks)).dropWhile isPyWs =
      ticks ++ lang ++ '\n' :: (T ++ '\n' :: ticks) := by
    refine dropWhile_of_headQ _ '\x60' ?_ rfl
    rfl
  have hd2 : (ticks ++ lang ++ '\n' :: (T ++ '\n' :: ticks)).reverse.dropWhile isPyWs =
      (ticks ++ lang ++ '\n' :: (T ++ '\n' :: ticks)).reverse :=
    dropWhile_rev_of_getLastQ _ '\x60' hgl rfl
  have hstrip : pyStrip (ticks ++ lang ++ '\n' :: (T ++ '\n' :: ticks)) =
      ticks ++ lang ++ '\n' :: (T ++ '\n' :: ticks) :=
    pyStrip_eq_self _ hd1 hd2
  have hfence : ticks.isPrefixOf
      (pyStrip (ticks ++ lang ++ '\n' :: (T ++ '\n' :: ticks))) = true := by
    rw [hstrip]
    exact List.isPrefixOf_iff_prefix.mpr ⟨lang ++ '\n' :: (T ++ '\n' :: ticks), by simp⟩
  have hsplit : splitNl (ticks ++ lang ++ '\n' :: (T ++ '\n' :: ticks)) =
      (ticks ++ lang) :: (splitNl T ++ [ticks]) := by
    have h1 : ticks ++ lang ++ '\n' :: (T ++ '\n' :: ticks) =
        (ticks ++ lang) ++ '\n' :: (T ++ '\n' :: ticks) := by simp
    rw [h1, splitNl_append, splitNl_append]
    rw [splitNl_no_nl (ticks ++ lang) (by
      intro hmem
      rcases List.mem_append.mp hmem with h | h
      · revert h
        decide
      · exact hlang h)]
    rw [splitNl_no_nl ticks (by decide)]
    rfl
  have hdef : deFence (ticks ++ lang ++ '\n' :: (T ++ '\n' :: ticks)) = T := by
    have hlastline : ((ticks ++ lang) :: (splitNl T ++ [ticks])).getLastD [] = ticks := by
      rw [List.getLastD_cons, List.getLastD_eq_getLast?, List.getLast?_append]
      rfl
    simp only [deFence]
    rw [hsplit, hlastline]
    rw [pyStrip_eq_self ticks (by decide) (by decide), if_pos rfl]
    rw [List.drop_one, List.tail_cons, List.dropLast_concat, joinNl_splitNl, hT]
  have hpre : preprocText (ticks ++ lang ++ '\n' :: (T ++ '\n' :: ticks)) = T := by
    rw [preprocText_fence _ hfence, hstrip, hdef]
  rw [pjr_eq, hpre, hv]

/-- Claim C6 witness: the claim applied to a concrete fenced input. -/
theorem claim6_witness :
    parse_json_response (ticks ++ (("json").toList) ++
        '\n' :: ((("[1, 2]").toList) ++ '\n' :: ticks)) =
      Except.ok (Json.arr [Json.num ['1'], Json.num ['2']]) :=
  claim6_fenced _ _ _ (by decide) (by rfl) (by rfl)

/-- Claim C7 counterexample: two prose wrappers free of square brackets
around a valid array text on which recovery does not return that array:
one whose prose opens a fence that swallows the payload line, and one
where the whole text parses directly as a JSON string. -/
theorem claim7_counterexample :
    parse_json_response (("\x60\x60\x60 [1,2]").toList) =
        Except.error (errMsg []) ∧
    parse_json_response (("\x60\x60\x60 [1,2]").toList) ≠
        Except.ok (Json.arr [Json.num ['1'], Json.num ['2']]) ∧
    parse_json_response (("\"[1]\"").toList) =
        Except.ok (Json.str ['[', '1', ']']) ∧
    parse_json_response (("\"[1]\"").toList) ≠
        Except.ok (Json.arr [Json.num ['1']]) := by
  have h1 : parse_json_response (("\x60\x60\x60 [1,2]").toList) =
      Except.error (errMsg []) := by rfl
  have h2 : parse_json_response (("\"[1]\"").toList) =
      Except.ok (Json.str ['[', '1', ']']) := by rfl
  refine ⟨h1, fun h => ?_, h2, fun h => ?_⟩
  · rw [h1] at h
    exact Except.noConfusion h
  · rw [h2] at h
    exact Json.noConfusion (Except.ok.inj h)

/-- Claim C7 amended: prose around a valid array text with no other square
brackets is recovered as the array's strict parse, provided the stripped
text does not begin with a fence marker and the direct parse of the
transformed text fails. -/
theorem claim7_amended (before after mid : List Char) (v : Json)
    (hb : ∀ c ∈ before, c ≠ '[' ∧ c ≠ ']')
    (ha : ∀ c ∈ after, c ≠ '[' ∧ c ≠ ']')
    (hv : json_loads ('[' :: mid ++ [']']) = some v)
    (hnf : ticks.isPrefixOf
      (pyStrip (before ++ ('[' :: mid ++ [']']) ++ after)) = false)
    (hdf : json_loads
      (preprocText (before ++ ('[' :: mid ++ [']']) ++ after)) = none) :
    parse_json_response (before ++ ('[' :: mid ++ [']']) ++ after) =
      Except.ok v := by
  have hstrip : pyStrip (before ++ ('[' :: mid ++ [']']) ++ after) =
      before.dropWhile isPyWs ++ ('[' :: mid ++ [']']) ++
        (after.reverse.dropWhile isPyWs).reverse := by
    refine pyStrip_decomp _ _ _ '[' ?_ rfl ']' ?_ rfl
    · rfl
    · rw [List.getLast?_append]
      rfl
  have hspan : spanBr '[' ']'
      (before.dropWhile isPyWs ++ ('[' :: mid ++ [']']) ++
        (after.reverse.dropWhile isPyWs).reverse) = some ('[' :: mid ++ [']']) := by
    refine spanBr_sandwich '[' ']' _ _ mid ?_ ?_
    · intro hmem
      exact (hb _ ((List.dropWhile_sublist _).subset hmem)).1 rfl
    · intro hmem
      have hmem2 : ']' ∈ after :=
        List.mem_reverse.mp
          ((List.dropWhile_sublist _).subset (List.mem_reverse.mp hmem))
      exact (ha _ hmem2).2 rfl
  have hpre : preprocText (before ++ ('[' :: mid ++ [']']) ++ after) =
      before.dropWhile isPyWs ++ ('[' :: mid ++ [']']) ++
        (after.reverse.dropWhile isPyWs).reverse := by
    rw [preprocText_no_fence _ hnf, hstrip]
  rw [hpre] at hdf
  rw [pjr_eq, hpre, hdf, hspan]
  simp only [Option.some_bind]
  rw [hv]

/-- Claim C7 witness: the amended claim applied to a concrete input. -/
theorem claim7_witness :
    parse_json_response ((("result: ").toList) ++
        ('[' :: (("1, 2").toList) ++ [']']) ++ ((" ok.").toList)) =
      Except.ok (Json.arr [Json.num ['1'], Json.num ['2']]) :=
  claim7_amended _ _ _ _ (by decide) (by decide) (by rfl) (by rfl) (by rfl)

/-- Claim C9: the routine is a deterministic pure function of its single
text argument; equal inputs give equal outcomes, its type reading no state
and performing no effect. -/
theorem claim9_deterministic (s1 s2 : List Char) (h : s1 = s2) :
    parse_json_response s1 = parse_json_response s2 := by
  rw [h]

/-- Claim C9 witness: the claim applied to a concrete input. -/
theorem claim9_witness :
    parse_json_response (("[]").toList) = parse_json_response (("[]").toList) :=
  claim9_deterministic _ _ rfl

/-- Claim C10: whenever the trimmed and de-fenced text parses directly the
routine returns the parse, including scalar values; a bare number, true,
null or a quoted string is accepted and returned although it is neither a
mapping nor a sequence. -/
theorem claim10_scalar :
    (∀ s v, json_loads (preprocText s) = some v → parse_json_response s = Except.ok v) ∧
    parse_json_response (("42").toList) = Except.ok (Json.num ['4', '2']) ∧
    parse_json_response (("true").toList) = Except.ok (Json.bool true) ∧
    parse_json_response (("null").toList) = Except.ok Json.null ∧
    parse_json_response (("\"hi\"").toList) = Except.ok (Json.str ['h', 'i']) ∧
    (∀ l, Json.num ['4', '2'] ≠ Json.obj l) ∧
    (∀ l, Json.num ['4', '2'] ≠ Json.arr l) := by
  refine ⟨?_, by rfl, by rfl, by rfl, by rfl, ?_, ?_⟩
  · intro s v h
    rw [pjr_eq s, h]
  · exact fun l h => Json.noConfusion h
  · exact fun l h => Json.noConfusion h

/-- Claim C10 witness: the direct-parse clause applied to a concrete scalar
input. -/
theorem claim10_witness :
    parse_json_response (("3.5").toList) = Except.ok (Json.num ['3', '.', '5']) :=
  claim10_scalar.1 _ _ (by rfl)

/-- Claim C8: recovery is idempotent through re-serialization: whenever
parse_json_response recovers a value from an input, serializing that value
and running parse_json_response on the serialized text recovers the same
value. -/
theorem claim8_idempotent (s : List Char) (v : Json)
    (h : parse_json_response s = Except.ok v) :
    parse_json_response (dumps v) = parse_json_response s := by
  rw [h]
  exact pjr_dumps v (pjr_wf s v h)

theorem claim8_witness :
    parse_json_response (dumps (Json.arr [Json.num ['1']])) =
      parse_json_response ['[', '1', ']'] :=
  claim8_idempotent ['[', '1', ']'] (Json.arr [Json.num ['1']]) rfl

end Gemini
